import Mathlib

/-!
Verification development for the jsontree library: compilation of RFC 9535
JSONPath expressions into a selector tree (`New`, `NewFixedModeTree`) and
evaluation of that tree against a JSON value (`Tree.Select`).

The definitions below are a shallow embedding of the Go source:

* `Value` models Go's `any` holding a decoded JSON value.  Go decodes JSON
  `null` to `nil`, which `Value.nil` models.  `Value.sentinel` models the
  private `nullVal` marker (`tree.go`) that ordered mode uses to distinguish
  a selected null from an unselected array slot.
* `VList` and `FList` model Go `[]any` slices and `map[string]any` maps.
  Maps are modelled as association lists in insertion order; Go's map
  iteration order is unspecified, the list order stands in for it.
* The selector containment predicates follow `segment.go`, the compiler
  follows `New` and `selectorsFor` in `tree.go`, and the evaluator follows
  the `select*`/`process*`/`dispatch*`/`insert`/`compress*` family in
  `tree.go`.

The evaluator's mutual recursion is driven by a fuel argument so that every
definition is structurally recursive and executable; `Select` supplies fuel
that exceeds the recursion depth of the Go code (which is bounded by a small
multiple of the depth of the input value).
-/

namespace JsonTree

mutual

/-- Model of a Go `any` holding a decoded JSON value (or the internal
`nullVal` sentinel). Numbers are modelled as integers; their arithmetic is
irrelevant to the tree logic. -/
inductive Value where
  | nil
  | bool (b : Bool)
  | num (n : Int)
  | str (s : String)
  | arr (xs : VList)
  | obj (fs : FList)
  | sentinel
  deriving DecidableEq

/-- Model of a Go `[]any` slice of JSON values. -/
inductive VList where
  | nil
  | cons (v : Value) (tl : VList)
  deriving DecidableEq

/-- Model of a Go `map[string]any`, as an association list in insertion
order. -/
inductive FList where
  | nil
  | cons (k : String) (v : Value) (tl : FList)
  deriving DecidableEq

end

/-- Conversion from a Lean list, for writing concrete values. -/
def VList.ofList : List Value → VList
  | [] => .nil
  | v :: tl => .cons v (VList.ofList tl)

/-- Conversion from a Lean list, for writing concrete objects. -/
def FList.ofList : List (String × Value) → FList
  | [] => .nil
  | (k, v) :: tl => .cons k v (FList.ofList tl)

/-- Length of a slice (`len` in Go). -/
def VList.length : VList → Nat
  | .nil => 0
  | .cons _ tl => tl.length + 1

/-- Element read `xs[i]`, defaulting to `nil` out of range. -/
def VList.getD : VList → Nat → Value
  | .nil, _ => .nil
  | .cons v _, 0 => v
  | .cons _ tl, n + 1 => tl.getD n

/-- Element write `xs[i] = v` (no effect out of range, which the embedded
code never does). -/
def VList.set : VList → Nat → Value → VList
  | .nil, _, _ => .nil
  | .cons _ tl, 0, v => .cons v tl
  | .cons w tl, n + 1, v => .cons w (tl.set n v)

/-- Append of two slices. -/
def VList.append : VList → VList → VList
  | .nil, ys => ys
  | .cons v tl, ys => .cons v (tl.append ys)

/-- Slice holding `n` copies of `v`. -/
def VList.replicate : Nat → Value → VList
  | 0, _ => .nil
  | n + 1, v => .cons v (VList.replicate n v)

/-- Model of Go's reslicing `dst = dst[:n]` when it grows `dst`: the newly
exposed capacity slots of the destination are zero-valued (`nil`).  The
destination slices built by the evaluator never hide a written slot, so the
exposed slots are always `nil`. -/
def VList.growTo (xs : VList) (n : Nat) : VList :=
  VList.append xs (VList.replicate (n - xs.length) .nil)

/-- Map lookup `m[k]`, distinguishing a missing key. -/
def FList.lookup : FList → String → Option Value
  | .nil, _ => none
  | .cons k v tl, key => if k = key then some v else tl.lookup key

/-- Map write `m[k] = v`: replaces in place or appends a new key. -/
def FList.setKey : FList → String → Value → FList
  | .nil, key, v => .cons key v .nil
  | .cons k w tl, key, v =>
    if k = key then .cons k v tl else .cons k w (tl.setKey key v)

/-- Size of a map (`len` in Go). -/
def FList.length : FList → Nat
  | .nil => 0
  | .cons _ _ tl => tl.length + 1

/-- Model of `spec.Selector` from github.com/theory/jsonpath: name, index,
slice, wildcard or filter selector.  A slice stores its start, end and step
(`spec.SliceSelector`); defaults are already applied by the parser (omitted
start is `0`, an omitted end with positive step is `math.MaxInt`, omitted
step is `1`).  A filter selector is identified by its canonical string form
(`FilterSelector.String`); its predicate is evaluated through an environment
passed to the evaluator, modelling the `Eval(current, root)` contract. -/
inductive Selector where
  | name (s : String)
  | index (i : Int)
  | slice (start stop step : Int)
  | wildcard
  | filter (f : String)
  deriving DecidableEq

/-- Go's `math.MaxInt` on a 64-bit platform. -/
def maxInt : Int := 9223372036854775807

/-- Helper `abs` from `segment.go`. -/
def absI (x : Int) : Int := if x < 0 then -x else x

/-- Modelled from the spec: `SliceSelector.Bounds(len)` of the external
jsonpath parser package (not part of this repository's source), which the
spec describes as computing the effective iteration bounds per RFC 9535.
For a non-negative step the result is `(lower, upper)` with iteration
`lower, lower+step, ... < upper`; for a negative step iteration runs
`upper, upper+step, ... > lower`. -/
def sliceBounds (start stop step len : Int) : Int × Int :=
  let normalize : Int → Int := fun i => if 0 ≤ i then i else len + i
  if 0 ≤ step then
    (min (max (normalize start) 0) len, min (max (normalize stop) 0) len)
  else
    (min (max (normalize stop) (-1)) (len - 1),
     min (max (normalize start) (-1)) (len - 1))

/-- Predicate `containsName` from `segment.go`: does the selector list hold
this name? -/
def containsName (selectors : List Selector) (nm : String) : Bool :=
  selectors.any fun s =>
    match s with
    | .name s' => s' = nm
    | _ => false

/-- Containment test of one determined slice: the inline slice block of
`containsIndex` in `segment.go` after its bounds-computability guard.  The
virtual size is `max(abs(idx), start, stop)`, incremented unless it is
`math.MaxInt`; a negative index is offset from the upper bound.  The `%` on
the positive-step branch is applied to non-negative operands, where Go's
truncated remainder and Lean's `Int.emod` agree. -/
def sliceIdxKnown (start stop step idx : Int) : Bool :=
  let sel := idx
  let size := max (absI sel) (max start stop)
  let size := if size ≠ maxInt then size + 1 else size
  let (lower, upper) := sliceBounds start stop step size
  let sel := if sel < 0 then upper + sel else sel
  if step > 0 && lower ≤ sel && sel < upper && (sel - lower) % step = 0 then
    true
  else if step = -1 && sel ≤ upper && lower < sel then
    true
  else
    false

/-- Guard of the slice case of `containsIndex` in `segment.go`: bounds of
such a slice depend on the input length, so containment cannot be decided
independently. -/
def undeterminedSlice (start stop step : Int) : Bool :=
  start < 0 || stop < 0 || (stop < start && step ≠ -1)

/-- Predicate `containsIndex` from `segment.go`.  Mirrors the Go loop
exactly: a slice whose bounds cannot be computed without the input length
makes the function return `false` immediately, aborting the scan of the
remaining selectors. -/
def containsIndex (selectors : List Selector) (idx : Int) : Bool :=
  match selectors with
  | [] => false
  | s :: rest =>
    match s with
    | .index j => if j = idx then true else containsIndex rest idx
    | .slice start stop step =>
      if undeterminedSlice start stop step then false
      else if sliceIdxKnown start stop step idx then true
      else containsIndex rest idx
    | _ => containsIndex rest idx

/-- Predicate `sliceInSlice` from `segment.go`: is `sub` a subset of `sup`?
Go computes `sub.Step() % sup.Step()` with truncated remainder; only its
zero-ness is used, on which `Int.emod` agrees for a non-zero modulus.  (For
a zero `sup` step Go would panic; slices with step `0` are dropped before
ever being stored in a segment, so that case is unreachable there.) -/
def sliceInSlice (subStart subStop subStep supStart supStop supStep : Int) : Bool :=
  if subStep % supStep ≠ 0 then false
  else if subStep > 0 && supStep > 0 then
    subStart ≥ supStart && subStop ≤ supStop
  else if subStep < 0 && supStep < 0 then
    subStart ≤ supStart && subStop ≥ supStop
  else if subStep ≤ 1 && supStep > 0 then
    subStart < supStop && subStop ≥ supStart - 1
  else if subStep > 0 && supStep < 0 then
    subStop > supStart && subStart - 1 ≥ supStop
  else false

/-- Predicate `containsSlice` from `segment.go`. -/
def containsSlice (selectors : List Selector) (start stop step : Int) : Bool :=
  if step = 0 || start = stop || (step > 0 && start > stop) ||
      (step < 0 && start < stop) then
    -- Never selects anything, so vacuously contained.
    true
  else
    selectors.any fun s =>
      match s with
      | .slice a b st => sliceInSlice start stop step a b st
      | .index i =>
        (start = i && stop = i + 1 && step > 0) ||
        (start = i + 1 && stop = i && step < 0)
      | _ => false

/-- Predicate `containsFilter` from `segment.go`: filter containment is
canonical-string identity. -/
def containsFilter (selectors : List Selector) (f : String) : Bool :=
  selectors.any fun s =>
    match s with
    | .filter f' => f' = f
    | _ => false

/-- Predicate `selectorsContain` from `segment.go`: loose containment of a
selector in a selector list. -/
def selectorsContain (selectors : List Selector) (sel : Selector) : Bool :=
  if selectors.length = 1 && selectors.head? = some Selector.wildcard then
    -- A wildcard selector should always be the only selector.
    true
  else
    match sel with
    | .wildcard => false
    | .name nm => containsName selectors nm
    | .index i => containsIndex selectors i
    | .slice a b st => containsSlice selectors a b st
    | .filter f => containsFilter selectors f

example : containsIndex [.slice 2 6 2] 4 = true := by decide
example : containsIndex [.slice 2 6 2] 3 = false := by decide
example : containsIndex [.slice 4 1 1] 2 = false := by decide
example : containsIndex [.slice (-4) 20 1] 2 = false := by decide
example : containsIndex [.slice 0 (-1) 1] 2 = false := by decide
example : containsIndex [.slice 5 2 (-1)] 3 = true := by decide
example : containsIndex [.slice 5 2 (-1)] 2 = false := by decide
example : containsIndex [.slice 5 2 (-1)] 5 = true := by decide
example : containsIndex [.slice 0 6 1] 5 = true := by decide
example : containsIndex [.slice 0 6 1] 6 = false := by decide
example : containsIndex [.slice 2 maxInt 1] 2 = true := by decide
example : containsIndex [.slice 2 maxInt 1] 1 = false := by decide

mutual

/-- Model of the `segment` tree node from `segment.go`: a selector list, the
child segments, and the child/descendant flag. -/
inductive Segment where
  | mk (selectors : List Selector) (children : SegList) (descendant : Bool)
  deriving DecidableEq

/-- List of child segments (`[]*segment`). -/
inductive SegList where
  | nil
  | cons (s : Segment) (tl : SegList)
  deriving DecidableEq

end

/-- Selector list of a segment. -/
def Segment.selectors : Segment → List Selector
  | .mk sels _ _ => sels

/-- Children of a segment. -/
def Segment.children : Segment → SegList
  | .mk _ ch _ => ch

/-- Descendant flag of a segment. -/
def Segment.descendant : Segment → Bool
  | .mk _ _ d => d

/-- Number of children. -/
def SegList.length : SegList → Nat
  | .nil => 0
  | .cons _ tl => tl.length + 1

/-- Child at an index, defaulting to an empty segment (never hit by the
embedded code). -/
def SegList.getD : SegList → Nat → Segment
  | .nil, _ => .mk [] .nil false
  | .cons c _, 0 => c
  | .cons _ tl, n + 1 => tl.getD n

/-- Replacement of the child at an index. -/
def SegList.set : SegList → Nat → Segment → SegList
  | .nil, _, _ => .nil
  | .cons _ tl, 0, c => .cons c tl
  | .cons w tl, n + 1, c => .cons w (tl.set n c)

/-- Append of a child at the end (`append(cur.children, child)`). -/
def SegList.push : SegList → Segment → SegList
  | .nil, c => .cons c .nil
  | .cons w tl, c => .cons w (tl.push c)

/-- Conversion from a Lean list, for writing concrete trees. -/
def SegList.ofList : List Segment → SegList
  | [] => .nil
  | c :: tl => .cons c (SegList.ofList tl)

/-- Method `hasSelector` from `segment.go`. -/
def hasSelector (seg : Segment) (sel : Selector) : Bool :=
  selectorsContain seg.selectors sel

/-- Method `hasSelectors` from `segment.go`: is the list a loose subset of
the segment's selectors? -/
def hasSelectors (seg : Segment) (selectors : List Selector) : Bool :=
  selectors.all fun sel => hasSelector seg sel

/-- Method `hasSameSelectors` from `segment.go`. -/
def hasSameSelectors (seg : Segment) (selectors : List Selector) : Bool :=
  seg.selectors.length = selectors.length && hasSelectors seg selectors

/-- Method `isWildcard` from `segment.go`: a single wildcard selector. -/
def isWildcard (seg : Segment) : Bool :=
  match seg.selectors with
  | [.wildcard] => true
  | _ => false

/-- Method `hasExactSelector` from `segment.go`: strict containment of one
selector (indexes match only indexes, slices must be identical). -/
def hasExactSelector (seg : Segment) (sel : Selector) : Bool :=
  match sel with
  | .wildcard => isWildcard seg
  | .name nm => containsName seg.selectors nm
  | .index i =>
    seg.selectors.any fun s =>
      match s with
      | .index j => j = i
      | _ => false
  | .slice a b st =>
    seg.selectors.any fun s =>
      match s with
      | .slice a' b' st' => a' = a && b' = b && st' = st
      | _ => false
  | .filter f => containsFilter seg.selectors f

/-- Method `hasExactSelectors` from `segment.go`. -/
def hasExactSelectors (seg : Segment) (selectors : List Selector) : Bool :=
  seg.selectors.length = selectors.length &&
    selectors.all fun sel => hasExactSelector seg sel

/-- Model of a parsed `spec.Segment` of a JSONPath query: the descendant
flag and the raw selector list. -/
structure PathSeg where
  descendant : Bool
  selectors : List Selector
  deriving DecidableEq

mutual

/-- Number of nodes of a segment tree, used to compute recursion fuel. -/
def segSize : Segment → Nat
  | .mk _ ch _ => segListSize ch + 1

/-- Total node count of a child list. -/
def segListSize : SegList → Nat
  | .nil => 1
  | .cons c tl => segSize c + segListSize tl + 1

end

mutual

/-- Fuel-driven body of `sameBranches`; the fuel strictly exceeds the
recursion depth of the Go code, so the out-of-fuel branch is unreachable. -/
def sameBranchesF : Nat → Segment → Segment → Bool
  | 0, _, _ => false
  | n + 1, .mk _ c1 _, .mk _ c2 _ =>
    c1.length = c2.length && allBranchMatchF n c1 c2

/-- Inner loop of `sameBranches`: every child of the first list has a match
in the second. -/
def allBranchMatchF : Nat → SegList → SegList → Bool
  | 0, _, _ => false
  | _ + 1, .nil, _ => true
  | n + 1, .cons c tl, l2 => anyBranchMatchF n c l2 && allBranchMatchF n tl l2

/-- Inner loop of `sameBranches`: some child of the list matches `c1`. -/
def anyBranchMatchF : Nat → Segment → SegList → Bool
  | 0, _, _ => false
  | _ + 1, _, .nil => false
  | n + 1, c1, .cons c2 tl =>
    (hasExactSelectors c1 c2.selectors && sameBranchesF n c1 c2) || anyBranchMatchF n c1 tl

end

/-- Method `sameBranches` from `segment.go`: recursive structural equality
of the child trees (exact selectors, any order, equal child counts).  The
Go recursion descends simultaneously on both trees and along both child
lists, so its depth is below `4 * (segSize s1 + segSize s2 + 2)`. -/
def sameBranches (s1 s2 : Segment) : Bool :=
  sameBranchesF (4 * (segSize s1 + segSize s2 + 2)) s1 s2

/-- Method `isBranch` from `segment.go`: the segment's descendants form a
single chain matching the given parsed segments. -/
def isBranch : Segment → List PathSeg → Bool
  | seg, [] => seg.children.length = 0
  | seg, ps :: rest =>
    match seg.children with
    | .cons c .nil =>
      if c.descendant ≠ ps.descendant then false
      else if c.selectors.length ≠ ps.selectors.length || !hasSelectors c ps.selectors then
        false
      else isBranch c rest
    | _ => false

/-- Method `mergeSelectors` from `segment.go`: append each selector not
already loosely contained. -/
def mergeSelectors (seg : Segment) (selectors : List Selector) : Segment :=
  selectors.foldl
    (fun s sel =>
      if hasSelector s sel then s
      else Segment.mk (s.selectors ++ [sel]) s.children s.descendant)
    seg

/-- Method `removeCommonSelectorsFrom` from `segment.go`: returns the
updated second segment and whether all of its selectors were removed. -/
def removeCommonSelectorsFrom (seg seg2 : Segment) : Segment × Bool :=
  let uniqueSel := seg2.selectors.filter fun sel => !hasSelector seg sel
  if uniqueSel.length = seg2.selectors.length then
    (seg2, false)
  else if uniqueSel.length = 0 then
    (Segment.mk uniqueSel seg2.children seg2.descendant, true)
  else
    (Segment.mk uniqueSel seg2.children seg2.descendant, false)

/-- Inner loop of `mergeSlices`: scan the accumulated selectors for a slice
subsuming or subsumed by the candidate slice.  `some merged` means the scan
consumed the candidate (dropped or replaced in place); `none` means no
interaction, so the caller appends it. -/
def mergeSlicePass (sel : Selector) : List Selector → Option (List Selector)
  | [] => none
  | ss :: rest =>
    match ss, sel with
    | .slice a b st, .slice a' b' st' =>
      if sliceInSlice a' b' st' a b st then some (Selector.slice a b st :: rest)
      else if sliceInSlice a b st a' b' st' then some (sel :: rest)
      else (mergeSlicePass sel rest).map fun r => Selector.slice a b st :: r
    | _, _ => (mergeSlicePass sel rest).map fun r => ss :: r

/-- Method `mergeSlices` from `segment.go`, applied to a selector list:
eliminate slices that are clear subsets of another. -/
def mergeSlicesSels (selectors : List Selector) : List Selector :=
  selectors.foldl
    (fun merged sel =>
      match sel with
      | .slice _ _ _ =>
        match mergeSlicePass sel merged with
        | some m => m
        | none => merged ++ [sel]
      | _ => merged ++ [sel])
    []

/-- Inner loop of `deduplicate` over the already-accumulated children:
threads the accumulated list, the current child (which Go mutates through
its pointer) and the `skip` flag, which Go reassigns on every matching
entry.  Go's pointer aliasing (an entry of `merged` can alias the child
after a replacement) is modelled by value threading; the difference is
observable only when a replacement is followed by a later `skip` reset in
the same scan, which no compiled tree reaches. -/
def dedupInner : List Segment → Segment → Bool → (List Segment × Segment × Bool)
  | [], c, skip => ([], c, skip)
  | p :: rest, c, skip =>
    if !sameBranches p c then
      let (r, c', s) := dedupInner rest c skip
      (p :: r, c', s)
    else if p.descendant = c.descendant then
      let p' := mergeSelectors p c.selectors
      let (r, c', s) := dedupInner rest c true
      (p' :: r, c', s)
    else if c.descendant then
      let (p', removedAll) := removeCommonSelectorsFrom c p
      if removedAll then
        let (r, c', s) := dedupInner rest c true
        (c :: r, c', s)
      else
        let (r, c', s) := dedupInner rest c false
        (p' :: r, c', s)
    else
      let (c1, removedAll) := removeCommonSelectorsFrom p c
      let (r, c', s) := dedupInner rest c1 removedAll
      (p :: r, c', s)

/-- Outer loop of `deduplicate`'s child reconciliation: fold each child
through `dedupInner` and append it unless skipped. -/
def dedupMergeAll (cs : List Segment) : List Segment :=
  cs.foldl
    (fun merged c =>
      let (m, c', skip) := dedupInner merged c false
      if skip then m else m ++ [c'])
    []

mutual

/-- Method `deduplicate` from `segment.go`: recursively deduplicate the
children, reconcile equal-branch siblings, and merge subset slices in the
selector list. -/
def deduplicate : Segment → Segment
  | .mk sels ch desc =>
    Segment.mk (mergeSlicesSels sels) (SegList.ofList (dedupMergeAll (dedupChildren ch))) desc

/-- Recursive deduplication of each child, in order. -/
def dedupChildren : SegList → List Segment
  | .nil => []
  | .cons c tl => deduplicate c :: dedupChildren tl

end

/-- Model of the `Tree` struct from `tree.go`: the synthetic root segment
and the fixed-mode flag (`index`). -/
structure Tree where
  root : Segment
  index : Bool
  deriving DecidableEq

/-- Test for a wildcard selector. -/
def isWildSel : Selector → Bool
  | .wildcard => true
  | _ => false

/-- Test for a slice selector. -/
def isSliceSel : Selector → Bool
  | .slice _ _ _ => true
  | _ => false

/-- Sorting pass of `selectorsFor` in `tree.go`: wildcards first, then
slices, then everything else.  Go uses `slices.SortFunc` with a comparator
that orders exactly these three groups; the stable grouping below matches
the orders asserted by the package's own tests. -/
def sortSelectors (sels : List Selector) : List Selector :=
  sels.filter isWildSel ++ sels.filter isSliceSel ++
    sels.filter fun s => !isWildSel s && !isSliceSel s

/-- Deduplication pass of `selectorsFor` in `tree.go`: a wildcard collapses
the whole list, otherwise drop selectors already loosely contained by the
accumulated result. -/
def dedupSelectors (acc : List Selector) : List Selector → List Selector × Bool
  | [] => (acc, false)
  | s :: rest =>
    if isWildSel s then ([Selector.wildcard], true)
    else if selectorsContain acc s then dedupSelectors acc rest
    else dedupSelectors (acc ++ [s]) rest

/-- Function `selectorsFor` from `tree.go`: normalized selectors of a parsed
segment plus the is-wildcard flag. -/
def selectorsFor (seg : PathSeg) : List Selector × Bool :=
  dedupSelectors [] (sortSelectors seg.selectors)

/-- Merge candidate decisions of the child scan inside `New` (`tree.go`,
the `for _, child := range cur.children` loop). -/
inductive ChildAction where
  | branchMerge
  | sameNoKids
  | sameLast
  | sameDescend
  | wildUpgrade
  deriving DecidableEq

/-- Child scan of `New`: find the first child a case of the Go `switch`
applies to, with the action to take.  A child whose descendant flag matches
but which triggers neither sub-case falls through to the next child without
trying the wildcard-upgrade case, exactly as the Go `switch` does. -/
def findChild (children : SegList) (psDesc isWild : Bool) (selectors : List Selector)
    (rest : List PathSeg) : Option (Nat × ChildAction) :=
  go children 0
where
  /-- Scan the children in order, tracking the index. -/
  go : SegList → Nat → Option (Nat × ChildAction)
  | .nil, _ => none
  | .cons c tl, i =>
    if c.descendant = psDesc then
      if isBranch c rest then some (i, .branchMerge)
      else if hasSameSelectors c selectors then
        if c.children.length = 0 then some (i, .sameNoKids)
        else if rest.isEmpty then some (i, .sameLast)
        else some (i, .sameDescend)
      else go tl (i + 1)
    else if isWild && !c.descendant && isWildcard c && isBranch c rest then
      some (i, .wildUpgrade)
    else go tl (i + 1)

/-- Per-path folding loop of `New` (`tree.go`): process the remaining parsed
segments of one path below `cur`, returning the updated segment.  The Go
loop walks a cursor down the tree mutating it in place; here each step
rebuilds the affected child. -/
def insertSegs : Segment → List PathSeg → Segment
  | cur, [] => cur
  | cur, ps :: rest =>
    let (selectors, isWild) := selectorsFor ps
    if isWild && rest.isEmpty then
      -- Trailing wildcard is the same as selecting the parent: discard it.
      cur
    else
      match findChild cur.children ps.descendant isWild selectors rest with
      | some (i, .branchMerge) =>
        -- Sub-branches equal; merge selectors and continue below the child.
        Segment.mk cur.selectors
          (cur.children.set i (insertSegs (mergeSelectors (cur.children.getD i) selectors) rest))
          cur.descendant
      | some (_, .sameNoKids) =>
        -- Same selectors, existing child is a leaf: discard the rest.
        cur
      | some (i, .sameLast) =>
        -- Same selectors at the last segment: discard the child's children.
        Segment.mk cur.selectors
          (cur.children.set i
            (Segment.mk (cur.children.getD i).selectors .nil (cur.children.getD i).descendant))
          cur.descendant
      | some (i, .sameDescend) =>
        -- Same selectors; branches continue in the sub-segments.
        Segment.mk cur.selectors
          (cur.children.set i (insertSegs (cur.children.getD i) rest))
          cur.descendant
      | some (i, .wildUpgrade) =>
        -- Descendant wildcard upgrades an equal non-descendant wildcard.
        Segment.mk cur.selectors
          (cur.children.set i
            (insertSegs
              (Segment.mk (cur.children.getD i).selectors (cur.children.getD i).children true)
              rest))
          cur.descendant
      | none =>
        -- No matching child: append a new one and continue below it.
        Segment.mk cur.selectors
          (cur.children.push (insertSegs (Segment.mk selectors .nil ps.descendant) rest))
          cur.descendant

/-- Function `New` from `tree.go`: fold every path into the tree, then
deduplicate from the root.  Ordered mode. -/
def New (paths : List (List PathSeg)) : Tree :=
  Tree.mk (deduplicate (paths.foldl insertSegs (Segment.mk [] .nil false))) false

/-- Function `NewFixedModeTree` from `tree.go`: same compilation with the
fixed-mode flag set. -/
def NewFixedModeTree (paths : List (List PathSeg)) : Tree :=
  Tree.mk (New paths).root true

/-- Truncation `xs[:n]` of a destination slice back to a previous length. -/
def VList.take : VList → Nat → VList
  | _, 0 => .nil
  | .nil, _ => .nil
  | .cons v tl, n + 1 => .cons v (tl.take n)

/-- Left fold over the children of a segment. -/
def SegList.foldl {α : Type} (f : α → Segment → α) : α → SegList → α
  | acc, .nil => acc
  | acc, .cons c tl => SegList.foldl f (f acc c) tl

/-- Left fold over the key/value pairs of an object (`for k, v := range`). -/
def FList.foldl {α : Type} (f : α → String → Value → α) : α → FList → α
  | acc, .nil => acc
  | acc, .cons k v tl => FList.foldl f (f acc k v) tl

/-- Left fold over the elements of a slice with their index
(`for i, v := range`). -/
def VList.foldlIdx {α : Type} (f : α → Nat → Value → α) : Nat → α → VList → α
  | _, acc, .nil => acc
  | i, acc, .cons v tl => VList.foldlIdx f (i + 1) (f acc i v) tl

mutual

/-- Node count of a value, used to compute evaluator fuel. -/
def sizeValue : Value → Nat
  | .arr xs => sizeVL xs + 1
  | .obj fs => sizeFL fs + 1
  | _ => 1

/-- Node count of a slice of values. -/
def sizeVL : VList → Nat
  | .nil => 1
  | .cons v tl => sizeValue v + sizeVL tl + 1

/-- Node count of an object. -/
def sizeFL : FList → Nat
  | .nil => 1
  | .cons _ v tl => sizeValue v + sizeFL tl + 1

end

mutual

/-- Function `compressArray` from `tree.go` (the returned value): drop
unselected (`nil`) slots, convert the selected-null sentinel back to `nil`,
and recurse into arrays and objects. -/
def compressVL : VList → VList
  | .nil => .nil
  | .cons v tl =>
    match v with
    | .sentinel => .cons .nil (compressVL tl)
    | .arr xs => .cons (.arr (compressVL xs)) (compressVL tl)
    | .obj fs => .cons (.obj (compressFL fs)) (compressVL tl)
    | .nil => compressVL tl
    | w => .cons w (compressVL tl)

/-- Function `compressObject` from `tree.go` (the returned value): compress
every array or object member. -/
def compressFL : FList → FList
  | .nil => .nil
  | .cons k v tl =>
    match v with
    | .arr xs => .cons k (.arr (compressVL xs)) (compressFL tl)
    | .obj fs => .cons k (.obj (compressFL fs)) (compressFL tl)
    | w => .cons k w (compressFL tl)

end

mutual

/-- Absence of the internal `nullVal` sentinel anywhere in a value.  Decoded
JSON input values always satisfy it. -/
def noSent : Value → Bool
  | .sentinel => false
  | .arr xs => noSentVL xs
  | .obj fs => noSentFL fs
  | _ => true

/-- Sentinel-freedom of every element of a slice. -/
def noSentVL : VList → Bool
  | .nil => true
  | .cons v tl => noSent v && noSentVL tl

/-- Sentinel-freedom of every member of an object. -/
def noSentFL : FList → Bool
  | .nil => true
  | .cons _ v tl => noSent v && noSentFL tl

end

/-- Filter environment: evaluation of a filter selector's predicate, given
its canonical string, the current value and the root value.  Models the
`FilterSelector.Eval(current, root)` contract of the jsonpath package. -/
abbrev Fenv := String → Value → Value → Bool

/-- Method `insert` from `tree.go`: write `val` at `idx`, growing `dst` if
needed; in ordered mode (`fx = false`) a `nil` value is written as the
sentinel so that `compressArray` keeps it. -/
def insert (fx : Bool) (idx : Nat) (dst : VList) (val : Value) : VList :=
  let dst := if dst.length ≤ idx then dst.growTo (idx + 1) else dst
  if !fx && val = .nil then dst.set idx .sentinel else dst.set idx val

/-- Index sequence of a forward slice loop
(`for i := lower; i < upper; i += step`).  The first argument is fuel
strictly exceeding the iteration count. -/
def idxFwd : Nat → Int → Int → Int → List Nat
  | 0, _, _, _ => []
  | n + 1, i, upper, step =>
    if i < upper then i.toNat :: idxFwd n (i + step) upper step else []

/-- Index sequence of a backward slice loop
(`for i := upper; lower < i; i += step`, `step < 0`). -/
def idxBwd : Nat → Int → Int → Int → List Nat
  | 0, _, _, _ => []
  | n + 1, i, lower, step =>
    if lower < i then i.toNat :: idxBwd n (i + step) lower step else []

mutual

/-- Method `selectObjectSegment` from `tree.go`: apply the segment's own
selectors and then each child segment's selectors to `cur`, accumulating
into `dst`. -/
def selObjSeg : Nat → Fenv → Bool → Segment → Value → FList → FList → FList
  | 0, _, _, _, _, _, dst => dst
  | n + 1, fe, fx, seg, root, cur, dst =>
    let dst := selObj n fe fx seg root cur dst
    SegList.foldl (fun dst c => selObj n fe fx c root cur dst) dst seg.children

/-- Method `selectObject` from `tree.go`: process each selector against the
object `cur`, then recurse for a descendant segment. -/
def selObj : Nat → Fenv → Bool → Segment → Value → FList → FList → FList
  | 0, _, _, _, _, _, dst => dst
  | n + 1, fe, fx, seg, root, cur, dst =>
    let dst :=
      seg.selectors.foldl
        (fun dst sel =>
          match sel with
          | .name nm => processKey n fe fx nm seg root cur dst
          | .wildcard => FList.foldl (fun dst k _ => processKey n fe fx k seg root cur dst) dst cur
          | .filter f =>
            FList.foldl
              (fun dst k v => if fe f v root then processKey n fe fx k seg root cur dst else dst)
              dst cur
          | _ => dst)
        dst
    if seg.descendant then descObj n fe fx seg root cur dst else dst

/-- Method `descendObject` from `tree.go`: re-apply the descendant segment
to every object or array member of `cur`. -/
def descObj : Nat → Fenv → Bool → Segment → Value → FList → FList → FList
  | 0, _, _, _, _, _, dst => dst
  | n + 1, fe, fx, seg, root, cur, dst =>
    FList.foldl
      (fun dst k v =>
        match v with
        | .obj fs =>
          match dispatchObj n fe fx seg root fs ((dst.lookup k).getD .nil) with
          | some sub => dst.setKey k (.obj sub)
          | none => dst
        | .arr xs =>
          let sub := dispatchArr n fe fx seg root xs ((dst.lookup k).getD .nil)
          if sub ≠ .nil then dst.setKey k (.arr sub) else dst
        | _ => dst)
      dst cur

/-- Method `processKey` from `tree.go`: keep the raw value at a leaf, or
dispatch the same segment into an object or array value. -/
def processKey : Nat → Fenv → Bool → String → Segment → Value → FList → FList → FList
  | 0, _, _, _, _, _, _, dst => dst
  | n + 1, fe, fx, key, seg, root, cur, dst =>
    match cur.lookup key with
    | none => dst
    | some val =>
      if seg.children.length = 0 then dst.setKey key val
      else
        match val with
        | .obj fs =>
          match dispatchObj n fe fx seg root fs ((dst.lookup key).getD .nil) with
          | some sub => dst.setKey key (.obj sub)
          | none => dst
        | .arr xs =>
          let sub := dispatchArr n fe fx seg root xs ((dst.lookup key).getD .nil)
          if sub ≠ .nil then dst.setKey key (.arr sub) else dst
        | _ => dst

/-- Method `dispatchObject` from `tree.go`: select into an existing
destination object, or into a fresh one which is kept only if non-empty.
Go panics when the existing destination is neither absent nor an object;
that branch is unreachable from `Select` and modelled as no selection. -/
def dispatchObj : Nat → Fenv → Bool → Segment → Value → FList → Value → Option FList
  | 0, _, _, _, _, _, _ => none
  | n + 1, fe, fx, seg, root, cur, dstVal =>
    match dstVal with
    | .nil =>
      let sub := selObjSeg n fe fx seg root cur .nil
      if sub.length = 0 then none else some sub
    | .obj fs => some (selObjSeg n fe fx seg root cur fs)
    | _ => none

/-- Method `selectArraySegment` from `tree.go`: apply the segment's own
selectors and each child segment's selectors to `cur`; a `nil` Go result is
modelled by the empty slice. -/
def selArrSeg : Nat → Fenv → Bool → Segment → Value → VList → VList → VList
  | 0, _, _, _, _, _, dst => dst
  | n + 1, fe, fx, seg, root, cur, dst =>
    let dst := selArr n fe fx seg root cur dst
    SegList.foldl (fun dst c => selArr n fe fx c root cur dst) dst seg.children

/-- Method `selectArray` from `tree.go`: process each selector against the
array `cur`, then recurse for a descendant segment.  A negative index
passes Go's `idx < len(cur)` bound check and then panics on `cur[idx]`;
that read is modelled as a no-op (no claim exercises it). -/
def selArr : Nat → Fenv → Bool → Segment → Value → VList → VList → VList
  | 0, _, _, _, _, _, dst => dst
  | n + 1, fe, fx, seg, root, cur, dst =>
    let dst :=
      seg.selectors.foldl
        (fun dst sel =>
          match sel with
          | .index i =>
            if i < (cur.length : Int) then
              if 0 ≤ i then processIdx n fe fx i.toNat seg root cur dst else dst
            else dst
          | .wildcard =>
            VList.foldlIdx (fun dst i _ => processIdx n fe fx i seg root cur dst) 0 dst cur
          | .slice a b st => processSlice n fe fx seg a b st root cur dst
          | .filter f =>
            VList.foldlIdx
              (fun dst i v => if fe f v root then processIdx n fe fx i seg root cur dst else dst)
              0 dst cur
          | _ => dst)
        dst
    if seg.descendant then descArr n fe fx seg root cur dst else dst

/-- Method `processSlice` from `tree.go`: iterate the slice's index
sequence per its bounds and step, dispatching to `processIdx`.  A step of
zero selects nothing. -/
def processSlice : Nat → Fenv → Bool → Segment → Int → Int → Int → Value → VList → VList → VList
  | 0, _, _, _, _, _, _, _, _, dst => dst
  | n + 1, fe, fx, seg, a, b, st, root, cur, dst =>
    if st > 0 then
      let (lower, upper) := sliceBounds a b st (cur.length : Int)
      (idxFwd ((upper - lower).toNat + 1) lower upper st).foldl
        (fun dst i => processIdx n fe fx i seg root cur dst) dst
    else if st < 0 then
      let (lower, upper) := sliceBounds a b st (cur.length : Int)
      (idxBwd ((upper - lower).toNat + 1) upper lower st).foldl
        (fun dst i => processIdx n fe fx i seg root cur dst) dst
    else dst

/-- Method `processIndex` from `tree.go`: grow the destination up to the
index if needed, keep the raw value at a leaf, or dispatch into an object
or array value, restoring the previous length when nothing was selected. -/
def processIdx : Nat → Fenv → Bool → Nat → Segment → Value → VList → VList → VList
  | 0, _, _, _, _, _, _, dst => dst
  | n + 1, fe, fx, idx, seg, root, cur, dst =>
    let prevLen := dst.length
    let grew := prevLen ≤ idx
    let dst := if grew then dst.growTo (idx + 1) else dst
    if seg.children.length = 0 then insert fx idx dst (cur.getD idx)
    else
      match cur.getD idx with
      | .obj fs =>
        match dispatchObj n fe fx seg root fs (dst.getD idx) with
        | some sub => insert fx idx dst (.obj sub)
        | none => if grew then dst.take prevLen else dst
      | .arr xs =>
        let sub := dispatchArr n fe fx seg root xs (dst.getD idx)
        if sub ≠ .nil then insert fx idx dst (.arr sub)
        else if grew then dst.take prevLen else dst
      | _ => if grew then dst.take prevLen else dst

/-- Method `dispatchArray` from `tree.go`: select into an existing
destination slice or a fresh one.  Go panics when the existing destination
is neither absent nor a slice; that branch is unreachable from `Select`
and modelled as no selection. -/
def dispatchArr : Nat → Fenv → Bool → Segment → Value → VList → Value → VList
  | 0, _, _, _, _, _, _ => .nil
  | n + 1, fe, fx, seg, root, cur, dstVal =>
    match dstVal with
    | .nil => selArrSeg n fe fx seg root cur .nil
    | .arr xs => selArrSeg n fe fx seg root cur xs
    | _ => .nil

/-- Method `descendArray` from `tree.go`: re-apply the descendant segment
to every object or array element of `cur`, inserting non-empty results. -/
def descArr : Nat → Fenv → Bool → Segment → Value → VList → VList → VList
  | 0, _, _, _, _, _, dst => dst
  | n + 1, fe, fx, seg, root, cur, dst =>
    let dstLen := dst.length
    VList.foldlIdx
      (fun dst i v =>
        let subDest := if i < dstLen then dst.getD i else .nil
        match v with
        | .obj fs =>
          match dispatchObj n fe fx seg root fs subDest with
          | some sub => insert fx i dst (.obj sub)
          | none => dst
        | .arr xs =>
          let sub := dispatchArr n fe fx seg root xs subDest
          if sub ≠ .nil then insert fx i dst (.arr sub) else dst
        | _ => dst)
      0 dst cur

end

/-- Fuel supplied to the evaluator: the Go recursion depth is bounded by a
small multiple of the input value's depth, which `sizeValue` dominates. -/
def evalFuel (v : Value) : Nat := 8 * (sizeValue v + 2)

/-- Method `Select` from `tree.go`: identity for a childless root; objects
and arrays are projected (with the ordered-mode compression pass); any
other value yields `nil` per RFC 9535. -/
def Select (fe : Fenv) (tree : Tree) (v : Value) : Value :=
  if tree.root.children.length = 0 then v
  else
    match v with
    | .obj fs =>
      let ret := selObjSeg (evalFuel v) fe tree.index tree.root v fs .nil
      if tree.index then .obj ret else .obj (compressFL ret)
    | .arr xs =>
      let sel := selArrSeg (evalFuel v) fe tree.index tree.root v xs .nil
      if sel ≠ .nil then
        if tree.index then .arr sel else .arr (compressVL sel)
      else .arr .nil
    | _ => .nil

/-- Drop of the first `n` elements of a slice. -/
def VList.drop : Nat → VList → VList
  | 0, xs => xs
  | _, .nil => .nil
  | n + 1, .cons _ tl => VList.drop n tl

/-- Contents of the original backing array of a Go slice after
`compressArray` ran on it: `compressArray` filters in place
(`ret := array[:0]` followed by `append`), so the kept elements overwrite
the front of the backing store while the remaining positions keep their old
contents.  The original slice header still covers the full length, so this
is what the caller of `Select` observes in an input array that was handed
to `compressArray`. -/
def compressBacking (xs : VList) : VList :=
  VList.append (compressVL xs) (VList.drop (compressVL xs).length xs)

/-- Test for a value that is neither an object nor an array. -/
def notObjArr : Value → Bool
  | .arr _ => false
  | .obj _ => false
  | _ => true

/-- Wildcard dominance of one selector list: a wildcard, if present, is the
only selector (spec §3, segment invariant 2). -/
def dominantSels (sels : List Selector) : Bool :=
  !(sels.contains Selector.wildcard) || sels.length == 1

mutual

/-- Wildcard dominance of every segment of a tree. -/
def wildDomSeg : Segment → Bool
  | .mk sels ch _ => dominantSels sels && wildDomList ch

/-- Wildcard dominance over a child list. -/
def wildDomList : SegList → Bool
  | .nil => true
  | .cons c tl => wildDomSeg c && wildDomList tl

end

/-- Match of one selector against an index for the scan characterization of
`containsIndex`: a literal equal `Index`, or a determined slice whose
computed bounds contain the index. -/
def idxMatch (s : Selector) (i : Int) : Bool :=
  match s with
  | .index j => j == i
  | .slice a b st => !undeterminedSlice a b st && sliceIdxKnown a b st i
  | _ => false

/-- Selector list that is not an undetermined slice. -/
def notUndet (s : Selector) : Bool :=
  match s with
  | .slice a b st => !undeterminedSlice a b st
  | _ => true

/-- Identity of `Select` when the root has no children (`tree.go`,
`Select`). -/
theorem select_nil_children (fe : Fenv) (t : Tree) (v : Value)
    (h : t.root.children = SegList.nil) : Select fe t v = v := by
  unfold Select
  rw [h]
  rfl

/-- C1: for every compiled tree whose root has no children (in particular a
tree compiled from zero paths), `Select` returns the input unchanged, for an
input of any type. -/
theorem c1_select_identity_no_children (fe : Fenv) (t : Tree) (v : Value)
    (h : t.root.children = SegList.nil) : Select fe t v = v :=
  select_nil_children fe t v h

/-- Witness for C1: the tree compiled from zero paths is childless in both
modes and `Select` is the identity on a scalar, an object and an array. -/
theorem c1_select_identity_no_children_witness :
    (New []).root.children = SegList.nil ∧
      Select (fun _ _ _ => false) (New []) (.num 42) = .num 42 ∧
      Select (fun _ _ _ => false) (NewFixedModeTree [])
        (.obj (.cons "a" (.arr .nil) .nil)) = .obj (.cons "a" (.arr .nil) .nil) :=
  ⟨by decide,
   c1_select_identity_no_children _ _ _ (by decide),
   c1_select_identity_no_children _ _ _ (by decide)⟩

/-- C3: a scalar or null input with a non-empty tree yields `nil`; the case
is not an error (the evaluator is a total function into values, so no error
value can escape to the caller). -/
theorem c3_select_scalar_null (fe : Fenv) (t : Tree) (v : Value)
    (h1 : t.root.children ≠ SegList.nil) (h2 : notObjArr v = true) :
    Select fe t v = .nil := by
  have hlen : t.root.children.length ≠ 0 := by
    cases h : t.root.children with
    | nil => exact absurd h h1
    | cons c tl => simp [SegList.length]
  unfold Select
  rw [if_neg hlen]
  cases v <;> simp_all [notObjArr]

/-- Witness for C3: a one-path tree applied to a string, a number, a
boolean and null. -/
theorem c3_select_scalar_null_witness :
    Select (fun _ _ _ => false) (New [[⟨false, [.name "a"]⟩]]) (.str "x") = .nil ∧
      Select (fun _ _ _ => false) (New [[⟨false, [.name "a"]⟩]]) (.num 7) = .nil ∧
      Select (fun _ _ _ => false) (NewFixedModeTree [[⟨false, [.name "a"]⟩]]) (.bool true) = .nil ∧
      Select (fun _ _ _ => false) (New [[⟨false, [.name "a"]⟩]]) .nil = .nil :=
  ⟨c3_select_scalar_null _ _ _ (by decide) (by decide),
   c3_select_scalar_null _ _ _ (by decide) (by decide),
   c3_select_scalar_null _ _ _ (by decide) (by decide),
   c3_select_scalar_null _ _ _ (by decide) (by decide)⟩

/-- C9: a trailing wildcard segment contributes nothing (processing it as
the last segment of a path leaves the tree unchanged), and the path set
consisting of `x-4-star` and `star-1` (single-segment paths whose selector
lists both collapse to a wildcard) compiles to the identity tree, whose
`Select` returns every value unchanged. -/
theorem c9_trailing_wildcard_discarded :
    (∀ (cur : Segment) (ps : PathSeg), (selectorsFor ps).2 = true →
      insertSegs cur [ps] = cur)
    ∧ (New [[⟨false, [.name "x", .index 4, .wildcard]⟩],
            [⟨false, [.wildcard, .index 1]⟩]]).root.children = SegList.nil
    ∧ ∀ (fe : Fenv) (v : Value),
        Select fe (New [[⟨false, [.name "x", .index 4, .wildcard]⟩],
                        [⟨false, [.wildcard, .index 1]⟩]]) v = v := by
  refine ⟨fun cur ps h => ?_, by decide,
    fun fe v => select_nil_children _ _ _ (by decide)⟩
  unfold insertSegs
  rcases hsf : selectorsFor ps with ⟨sels, w⟩
  rw [hsf] at h
  simp at h
  simp [h]

/-- Witness for C9: discharging the trailing-wildcard clause on a concrete
segment and cursor. -/
theorem c9_trailing_wildcard_discarded_witness :
    (selectorsFor ⟨false, [Selector.wildcard]⟩).2 = true ∧
      insertSegs (Segment.mk [.name "q"] .nil false) [⟨false, [Selector.wildcard]⟩] =
        Segment.mk [.name "q"] .nil false :=
  ⟨by decide, c9_trailing_wildcard_discarded.1 _ _ (by decide)⟩

/-- C4 counterexample: compiling the two paths `a.x` and `star.x` merges the
wildcard into the existing segment whose sub-branch equals `x`
(`mergeSelectors` does not collapse onto a wildcard), leaving a segment
whose selectors are a name and a wildcard together — wildcard dominance
fails, in both ordered and fixed mode. -/
theorem c4_wildcard_dominance_counterexample :
    wildDomSeg (New [[⟨false, [.name "a"]⟩, ⟨false, [.name "x"]⟩],
                     [⟨false, [.wildcard]⟩, ⟨false, [.name "x"]⟩]]).root = false
    ∧ wildDomSeg (NewFixedModeTree
        [[⟨false, [.name "a"]⟩, ⟨false, [.name "x"]⟩],
         [⟨false, [.wildcard]⟩, ⟨false, [.name "x"]⟩]]).root = false
    ∧ (New [[⟨false, [.name "a"]⟩, ⟨false, [.name "x"]⟩],
            [⟨false, [.wildcard]⟩, ⟨false, [.name "x"]⟩]]).root.children =
        SegList.cons
          (Segment.mk [.name "a", .wildcard]
            (SegList.cons (Segment.mk [.name "x"] .nil false) .nil) false) .nil := by
  decide

/-- C4 amended: the selector normalization `selectorsFor` always satisfies
wildcard dominance, so every newly created segment satisfies it; dominance
can be lost only when a later path merges a wildcard into an existing
segment with equal sub-branches. -/
theorem c4_selectors_for_wildcard_dominant (ps : PathSeg) :
    dominantSels (selectorsFor ps).1 = true := by
  have key : ∀ (l acc : List Selector), Selector.wildcard ∉ acc →
      dominantSels (dedupSelectors acc l).1 = true := by
    intro l
    induction l with
    | nil =>
      intro acc hacc
      simp only [dedupSelectors]
      simp [dominantSels]
      exact Or.inl hacc
    | cons s rest ih =>
      intro acc hacc
      by_cases hw : isWildSel s = true
      · simp [dedupSelectors, hw]
        decide
      · have hsne : s ≠ Selector.wildcard := by
          cases s <;> simp_all [isWildSel]
        rw [dedupSelectors]
        rw [if_neg (by simp [hw])]
        by_cases hc : selectorsContain acc s = true
        · simp only [hc, if_true]
          exact ih acc hacc
        · simp only [hc, if_false]
          refine ih (acc ++ [s]) ?_
          intro hmem
          rcases List.mem_append.mp hmem with h | h
          · exact hacc h
          · simp at h
            exact hsne h.symm
  exact key _ [] (by simp)

/-- C6: filter containment — loose (`selectorsContain`, via
`containsFilter`) and exact (`hasExactSelector`) — holds exactly when the
filters' canonical strings are character-for-character equal; logically
equivalent filters spelled differently are therefore not considered
equal. -/
theorem c6_filter_containment_by_string (ss : List Selector) (f g : String) :
    (containsFilter ss f = true ↔ Selector.filter f ∈ ss)
    ∧ (selectorsContain [Selector.filter g] (.filter f) = true ↔ g = f)
    ∧ (hasExactSelector (Segment.mk [Selector.filter g] .nil false) (.filter f) = true ↔ g = f) := by
  have base : ∀ (l : List Selector) (x : String),
      containsFilter l x = true ↔ Selector.filter x ∈ l := by
    intro l x
    simp only [containsFilter, List.any_eq_true]
    constructor
    · rintro ⟨s, hs, hm⟩
      cases s <;> simp_all
    · intro h
      exact ⟨Selector.filter x, h, by simp⟩
  refine ⟨base ss f, ?_, ?_⟩
  · rw [show selectorsContain [Selector.filter g] (.filter f) =
        containsFilter [Selector.filter g] f from rfl]
    rw [base]
    simp
    exact comm
  · rw [show hasExactSelector (Segment.mk [Selector.filter g] .nil false) (.filter f) =
        containsFilter [Selector.filter g] f from rfl]
    rw [base]
    simp
    exact comm

/-- C5 counterexample: the list holds the literal `Index 2`, yet
`containsIndex` returns `false` because the preceding negative-start slice
makes the whole scan return `false` instead of skipping that slice. -/
theorem c5_contains_index_counterexample :
    containsIndex [.slice (-1) 3 1, .index 2] 2 = false
    ∧ Selector.index 2 ∈ [Selector.slice (-1) 3 1, Selector.index 2] := by
  decide

/-- Unfolding of `containsIndex` at a literal index selector. -/
theorem containsIndex_cons_index (j : Int) (rest : List Selector) (i : Int) :
    containsIndex (.index j :: rest) i = if j = i then true else containsIndex rest i := rfl

/-- Unfolding of `containsIndex` at a slice selector. -/
theorem containsIndex_cons_slice (a b st : Int) (rest : List Selector) (i : Int) :
    containsIndex (.slice a b st :: rest) i =
      if undeterminedSlice a b st then false
      else if sliceIdxKnown a b st i then true
      else containsIndex rest i := rfl

/-- Unfolding of `containsIndex` at a name selector. -/
theorem containsIndex_cons_name (nm : String) (rest : List Selector) (i : Int) :
    containsIndex (.name nm :: rest) i = containsIndex rest i := rfl

/-- Unfolding of `containsIndex` at a wildcard selector. -/
theorem containsIndex_cons_wild (rest : List Selector) (i : Int) :
    containsIndex (.wildcard :: rest) i = containsIndex rest i := rfl

/-- Unfolding of `containsIndex` at a filter selector. -/
theorem containsIndex_cons_filter (f : String) (rest : List Selector) (i : Int) :
    containsIndex (.filter f :: rest) i = containsIndex rest i := rfl

/-- C5 amended: `containsIndex` returns `true` exactly when the list splits
as `pre ++ s :: post` where no selector of `pre` is an undetermined slice
(negative start or end, or backward with step other than `-1`) and `s` is a
literal equal `Index` or a determined slice containing the index per the
slice rule.  An undetermined slice aborts the scan with `false`, so a
literal `Index` after it is not detected; a determined slice never absorbs
an index it does not contain. -/
theorem c5_contains_index_scan (ss : List Selector) (i : Int) :
    containsIndex ss i = true ↔
      ∃ pre s post, ss = pre ++ s :: post
        ∧ (∀ u ∈ pre, notUndet u = true) ∧ idxMatch s i = true := by
  induction ss with
  | nil =>
    simp [containsIndex]
  | cons s rest ih =>
    constructor
    · intro h
      cases s with
      | index j =>
        rw [containsIndex_cons_index] at h
        by_cases hj : j = i
        · exact ⟨[], .index j, rest, rfl, by simp, by simp [idxMatch, hj]⟩
        · rw [if_neg hj] at h
          obtain ⟨pre, s', post, hsplit, hpre, hm⟩ := ih.mp h
          exact ⟨.index j :: pre, s', post, by simp [hsplit], by
            intro u hu
            rcases List.mem_cons.mp hu with h' | h'
            · simp [h', notUndet]
            · exact hpre u h', hm⟩
      | slice a b st =>
        rw [containsIndex_cons_slice] at h
        by_cases hu : undeterminedSlice a b st = true
        · simp [hu] at h
        · rw [if_neg hu] at h
          by_cases hk : sliceIdxKnown a b st i = true
          · refine ⟨[], .slice a b st, rest, rfl, by simp, ?_⟩
            simp [idxMatch, hk]
            simpa using hu
          · rw [if_neg hk] at h
            obtain ⟨pre, s', post, hsplit, hpre, hm⟩ := ih.mp h
            refine ⟨.slice a b st :: pre, s', post, by simp [hsplit], ?_, hm⟩
            intro u hu'
            rcases List.mem_cons.mp hu' with h' | h'
            · simp [h', notUndet]
              simpa using hu
            · exact hpre u h'
      | name nm =>
        rw [containsIndex_cons_name] at h
        obtain ⟨pre, s', post, hsplit, hpre, hm⟩ := ih.mp h
        exact ⟨.name nm :: pre, s', post, by simp [hsplit], by
          intro u hu
          rcases List.mem_cons.mp hu with h' | h'
          · simp [h', notUndet]
          · exact hpre u h', hm⟩
      | wildcard =>
        rw [containsIndex_cons_wild] at h
        obtain ⟨pre, s', post, hsplit, hpre, hm⟩ := ih.mp h
        exact ⟨.wildcard :: pre, s', post, by simp [hsplit], by
          intro u hu
          rcases List.mem_cons.mp hu with h' | h'
          · simp [h', notUndet]
          · exact hpre u h', hm⟩
      | filter f =>
        rw [containsIndex_cons_filter] at h
        obtain ⟨pre, s', post, hsplit, hpre, hm⟩ := ih.mp h
        exact ⟨.filter f :: pre, s', post, by simp [hsplit], by
          intro u hu
          rcases List.mem_cons.mp hu with h' | h'
          · simp [h', notUndet]
          · exact hpre u h', hm⟩
    · rintro ⟨pre, s', post, hsplit, hpre, hm⟩
      cases pre with
      | nil =>
        simp at hsplit
        obtain ⟨hs, hrest⟩ := hsplit
        subst hs
        cases s with
        | index j =>
          have : j = i := by simpa [idxMatch] using hm
          rw [hrest, containsIndex_cons_index]
          simp [this]
        | slice a b st =>
          simp only [idxMatch, Bool.and_eq_true, Bool.not_eq_true'] at hm
          rw [hrest, containsIndex_cons_slice, hm.1]
          simp [hm.2]
        | name nm => simp [idxMatch] at hm
        | wildcard => simp [idxMatch] at hm
        | filter f => simp [idxMatch] at hm
      | cons u pre' =>
        simp at hsplit
        obtain ⟨hu, hrest⟩ := hsplit
        subst hu
        have hnotu : notUndet s = true := hpre s (by simp)
        have htail : containsIndex rest i = true :=
          ih.mpr ⟨pre', s', post, hrest, fun u hu => hpre u (by simp [hu]), hm⟩
        cases s with
        | index j =>
          rw [containsIndex_cons_index]
          by_cases hj : j = i
          · simp [hj]
          · simp [hj, htail]
        | slice a b st =>
          have : undeterminedSlice a b st = false := by
            simpa [notUndet] using hnotu
          rw [containsIndex_cons_slice, this]
          by_cases hk : sliceIdxKnown a b st i = true
          · simp [hk]
          · simp [hk, htail]
        | name nm => rw [containsIndex_cons_name]; exact htail
        | wildcard => rw [containsIndex_cons_wild]; exact htail
        | filter f => rw [containsIndex_cons_filter]; exact htail

/-- C2 counterexample: in ordered mode, selecting index 1 from a two-element
array yields a one-element array, and selecting again yields an empty array:
projection is not idempotent. -/
theorem c2_idempotence_counterexample :
    Select (fun _ _ _ => false)
        (Tree.mk (Segment.mk [] (.cons (Segment.mk [.index 1] .nil false) .nil) false) false)
        (Select (fun _ _ _ => false)
          (Tree.mk (Segment.mk [] (.cons (Segment.mk [.index 1] .nil false) .nil) false) false)
          (.arr (.cons (.str "a") (.cons (.str "b") .nil))))
      ≠
      Select (fun _ _ _ => false)
        (Tree.mk (Segment.mk [] (.cons (Segment.mk [.index 1] .nil false) .nil) false) false)
        (.arr (.cons (.str "a") (.cons (.str "b") .nil))) := by
  decide

/-- C8: evidence that ordered-mode `Select` hands a raw input array to
`compressArray`, whose in-place filtering rewrites the input's backing
store.  Selecting `a` from an object holding the array `1, null, 2` keeps
the raw input array and then compresses it, so the caller's input array
reads `1, 2, 2` afterwards (its length-3 header over the rewritten
backing), while the spec requires the input never be mutated. -/
theorem c8_compress_mutates_input :
    Select (fun _ _ _ => false) (New [[⟨false, [.name "a"]⟩]])
        (.obj (.cons "a" (.arr (.cons (.num 1) (.cons .nil (.cons (.num 2) .nil)))) .nil))
      = .obj (.cons "a" (.arr (.cons (.num 1) (.cons (.num 2) .nil))) .nil)
    ∧ compressBacking (.cons (.num 1) (.cons .nil (.cons (.num 2) .nil)))
      = .cons (.num 1) (.cons (.num 2) (.cons (.num 2) .nil))
    ∧ compressBacking (.cons (.num 1) (.cons .nil (.cons (.num 2) .nil)))
      ≠ .cons (.num 1) (.cons .nil (.cons (.num 2) .nil)) := by
  refine ⟨by decide, by decide, by decide⟩

/-- Length of a replicated slice. -/
theorem VList.length_replicate (n : Nat) (v : Value) :
    (VList.replicate n v).length = n := by
  induction n with
  | zero => rfl
  | succ k ih => simp [VList.replicate, VList.length, ih]

/-- Growing the empty destination exposes `n` nil slots. -/
theorem VList.growTo_nil (n : Nat) : VList.growTo .nil n = VList.replicate n .nil := rfl

/-- Writing at the last slot of a freshly grown destination. -/
theorem VList.set_replicate_last (i : Nat) (v : Value) :
    (VList.replicate (i + 1) .nil).set i v =
      VList.append (VList.replicate i .nil) (.cons v .nil) := by
  induction i with
  | zero => rfl
  | succ k ih =>
    show VList.cons Value.nil ((VList.replicate (k + 1) Value.nil).set k v)
        = VList.cons Value.nil (VList.append (VList.replicate k Value.nil) (.cons v .nil))
    rw [ih]

/-- A grown-and-written destination is never empty. -/
theorem VList.append_replicate_ne_nil (i : Nat) (v : Value) :
    VList.append (VList.replicate i .nil) (.cons v .nil) ≠ .nil := by
  cases i <;> simp [VList.replicate, VList.append]

/-- Evaluation of `selectArray` for a segment with no selectors and no
descendant flag: the destination is untouched. -/
theorem selArr_no_selectors (n : Nat) (fe : Fenv) (fx : Bool) (ch : SegList)
    (root : Value) (cur dst : VList) :
    selArr (n + 1) fe fx (Segment.mk [] ch false) root cur dst = dst := by
  simp [selArr, Segment.selectors, Segment.descendant, List.foldl]

/-- Evaluation of `selectArray` for a non-descendant segment with a single
in-bounds non-negative index selector: one `processIndex` call. -/
theorem selArr_single_index (n : Nat) (fe : Fenv) (fx : Bool) (i : Nat)
    (ch : SegList) (root : Value) (cur dst : VList) (h : i < cur.length) :
    selArr (n + 1) fe fx (Segment.mk [.index (i : Int)] ch false) root cur dst =
      processIdx n fe fx i (Segment.mk [.index (i : Int)] ch false) root cur dst := by
  have hlt : ((i : Int) < (cur.length : Int)) := by exact_mod_cast h
  have hle : (0 : Int) ≤ (i : Int) := Int.ofNat_nonneg i
  simp only [selArr, Segment.selectors, Segment.descendant, List.foldl]
  rw [if_pos hlt, if_pos hle]
  simp [Int.toNat_ofNat]

/-- Evaluation of `processIndex` at a leaf segment from an empty
destination: grow to `i + 1` and insert the raw element. -/
theorem processIdx_leaf_empty (n : Nat) (fe : Fenv) (fx : Bool) (i : Nat)
    (sels : List Selector) (d : Bool) (root : Value) (cur : VList) :
    processIdx (n + 1) fe fx i (Segment.mk sels .nil d) root cur .nil =
      insert fx i (VList.replicate (i + 1) .nil) (cur.getD i) := by
  simp [processIdx, VList.length, Segment.children, SegList.length, VList.growTo_nil]

/-- Evaluation of fixed-mode `insert` into a freshly grown destination. -/
theorem insert_fixed_grown (i : Nat) (val : Value) :
    insert true i (VList.replicate (i + 1) .nil) val =
      VList.append (VList.replicate i .nil) (.cons val .nil) := by
  have hlen : ¬((VList.replicate (i + 1) Value.nil).length ≤ i) := by
    rw [VList.length_replicate]
    omega
  simp only [insert]
  rw [if_neg hlen]
  simp [VList.set_replicate_last]

/-- Evaluation of `selectArraySegment` for a tree whose root has a single
non-descendant leaf child selecting only index `i`, in fixed mode, on an
array longer than `i`: the destination grows to `i + 1` nil slots and the
input element lands at slot `i`. -/
theorem selArrSeg_single_index (n : Nat) (fe : Fenv) (i : Nat) (root : Value)
    (xs : VList) (h : i < xs.length) :
    selArrSeg (n + 3) fe true
        (Segment.mk [] (.cons (Segment.mk [.index (i : Int)] .nil false) .nil) false)
        root xs .nil
      = VList.append (VList.replicate i .nil) (.cons (xs.getD i) .nil) := by
  show SegList.foldl (fun dst c => selArr (n + 2) fe true c root xs dst)
      (selArr (n + 2) fe true
        (Segment.mk [] (.cons (Segment.mk [.index (i : Int)] .nil false) .nil) false)
        root xs .nil)
      (.cons (Segment.mk [.index (i : Int)] .nil false) .nil) = _
  rw [selArr_no_selectors]
  show selArr (n + 2) fe true (Segment.mk [.index (i : Int)] .nil false) root xs .nil = _
  rw [selArr_single_index _ _ _ _ _ _ _ _ h]
  rw [processIdx_leaf_empty]
  rw [insert_fixed_grown]

/-- C7: in fixed mode, a tree whose only selection on the array is the
single index `i` produces an array of length exactly `i + 1`, null at
positions `0` through `i - 1`, with the input's element at position `i`. -/
theorem c7_fixed_mode_single_index (fe : Fenv) (i : Nat) (xs : VList)
    (h : i < xs.length) :
    Select fe
        (Tree.mk (Segment.mk [] (.cons (Segment.mk [.index (i : Int)] .nil false) .nil) false)
          true)
        (.arr xs)
      = .arr (VList.append (VList.replicate i .nil) (.cons (xs.getD i) .nil)) := by
  obtain ⟨m, hm⟩ : ∃ m, evalFuel (.arr xs) = m + 3 :=
    ⟨evalFuel (.arr xs) - 3, by unfold evalFuel; omega⟩
  unfold Select
  rw [if_neg (by simp [Segment.children, SegList.length])]
  simp only []
  rw [hm, selArrSeg_single_index m fe i (.arr xs) xs h]
  rw [if_pos (VList.append_replicate_ne_nil i (xs.getD i))]
  rfl

/-- Witness for C7: index 2 of a three-element array in fixed mode. -/
theorem c7_fixed_mode_single_index_witness :
    2 < (VList.ofList [Value.num 10, .num 20, .num 30]).length ∧
      Select (fun _ _ _ => false)
          (Tree.mk (Segment.mk []
            (.cons (Segment.mk [.index (2 : Int)] .nil false) .nil) false) true)
          (.arr (VList.ofList [Value.num 10, .num 20, .num 30]))
        = .arr (VList.append (VList.replicate 2 .nil)
            (.cons ((VList.ofList [Value.num 10, .num 20, .num 30]).getD 2) .nil)) :=
  ⟨by decide, c7_fixed_mode_single_index _ 2 _ (by decide)⟩

/-- Test for a name selector. -/
def isNameSel : Selector → Bool
  | .name _ => true
  | _ => false

/-- Test for a non-descendant leaf segment whose selectors are all names. -/
def isNameLeaf (c : Segment) : Bool :=
  c.children.length == 0 && !c.descendant && c.selectors.all isNameSel

/-- Test for a child list made of name leaves only. -/
def nameLeafChildren : SegList → Bool
  | .nil => true
  | .cons c tl => isNameLeaf c && nameLeafChildren tl

/-- Names carried by a selector list. -/
def namesOfSels (sels : List Selector) : List String :=
  sels.filterMap fun s =>
    match s with
    | .name nm => some nm
    | _ => none

/-- Names selected by a child list, in evaluation order. -/
def namesOfChildren : SegList → List String
  | .nil => []
  | .cons c tl => namesOfSels c.selectors ++ namesOfChildren tl

/-- One step of the name projection: copy the key from the source if
present. -/
def projStep (m d : FList) (k : String) : FList :=
  match m.lookup k with
  | some v => d.setKey k v
  | none => d

/-- Name projection: copy each listed key present in the source into the
accumulator, in order. -/
def projNames (ns : List String) (m acc : FList) : FList :=
  ns.foldl (projStep m) acc

/-- Map over the values of an object, keeping keys and order. -/
def mapFL (f : Value → Value) : FList → FList
  | .nil => .nil
  | .cons k v tl => .cons k (f v) (mapFL f tl)

/-- Compression of a single member value, as `compressObject` applies it. -/
def cvV : Value → Value
  | .arr xs => .arr (compressVL xs)
  | .obj fs => .obj (compressFL fs)
  | w => w

/-- Induction over an object's spine (the values are not recursed into). -/
theorem flistInduct {P : FList → Prop} (h0 : P .nil)
    (h1 : ∀ k v tl, P tl → P (.cons k v tl)) : ∀ m, P m
  | .nil => h0
  | .cons k v tl => h1 k v tl (flistInduct h0 h1 tl)

/-- Induction over a slice's spine (the values are not recursed into). -/
theorem vlistInduct {P : VList → Prop} (h0 : P .nil)
    (h1 : ∀ v tl, P tl → P (.cons v tl)) : ∀ xs, P xs
  | .nil => h0
  | .cons v tl => h1 v tl (vlistInduct h0 h1 tl)

/-- Lookup after writing the same key. -/
theorem FList.lookup_setKey_self : ∀ (m : FList) (k : String) (v : Value),
    (m.setKey k v).lookup k = some v
  | .nil, k, v => by simp [FList.setKey, FList.lookup]
  | .cons k' w tl, k, v => by
    by_cases h : k' = k
    · simp [FList.setKey, FList.lookup, h]
    · simp [FList.setKey, FList.lookup, h, FList.lookup_setKey_self tl k v]

/-- Lookup after writing a different key. -/
theorem FList.lookup_setKey_ne : ∀ (m : FList) (k k' : String) (v : Value),
    k' ≠ k → (m.setKey k v).lookup k' = m.lookup k'
  | .nil, k, k', v, h => by
    have h' : ¬k = k' := fun hh => h (Eq.symm hh)
    simp [FList.setKey, FList.lookup, h']
  | .cons k0 w tl, k, k', v, h => by
    by_cases h0 : k0 = k
    · subst h0
      have h' : ¬k0 = k' := fun hh => h (Eq.symm hh)
      simp [FList.setKey, FList.lookup, h']
    · simp only [FList.setKey, if_neg h0, FList.lookup]
      by_cases h1 : k0 = k'
      · simp [h1]
      · simp [h1, FList.lookup_setKey_ne tl k k' v h]

/-- Lookup through a projection: a listed key present in the source reads
its source value, anything else reads the accumulator. -/
theorem lookup_projNames (ns : List String) (m : FList) :
    ∀ (acc : FList) (k : String),
      (projNames ns m acc).lookup k =
        if (m.lookup k).isSome ∧ k ∈ ns then m.lookup k else acc.lookup k := by
  induction ns with
  | nil => intro acc k; simp [projNames]
  | cons k0 rest ih =>
    intro acc k
    show (projNames rest m (projStep m acc k0)).lookup k = _
    rw [ih]
    by_cases hmem : k ∈ rest
    · by_cases hsome : (m.lookup k).isSome
      · simp [hmem, hsome]
      · simp only [hmem, and_true, hsome, false_and, if_false]
        have hnone : m.lookup k = none := by
          cases hv : m.lookup k
          · rfl
          · exact absurd (by simp [hv]) hsome
        by_cases hk0 : k = k0
        · subst hk0
          simp [projStep, hnone, hsome]
        · rcases hv0 : m.lookup k0 with _ | v0
          · simp [projStep, hv0, hsome, hnone]
          · simp only [projStep, hv0]
            rw [FList.lookup_setKey_ne _ _ _ _ hk0]
            simp [hsome, hnone]
    · by_cases hk0 : k = k0
      · subst hk0
        rcases hv0 : m.lookup k with _ | v0
        · simp [projStep, hv0, hmem]
        · simp only [projStep, hv0]
          simp only [hmem, false_or]
          rw [FList.lookup_setKey_self]
          simp [hv0, List.mem_cons]
      · have hnotin : ¬k ∈ k0 :: rest := by
          simp [hk0, hmem]
        simp only [hmem, and_false, if_false, hnotin]
        rcases hv0 : m.lookup k0 with _ | v0
        · simp [projStep, hv0]
        · simp only [projStep, hv0]
          rw [FList.lookup_setKey_ne _ _ _ _ hk0]

/-- Projections from sources that agree on the listed keys coincide. -/
theorem projNames_congr (ns : List String) (m m' : FList)
    (h : ∀ k ∈ ns, m.lookup k = m'.lookup k) :
    ∀ acc, projNames ns m acc = projNames ns m' acc := by
  induction ns with
  | nil => intro acc; rfl
  | cons k0 rest ih =>
    intro acc
    show projNames rest m (projStep m acc k0) = projNames rest m' (projStep m' acc k0)
    have hstep : projStep m acc k0 = projStep m' acc k0 := by
      simp [projStep, h k0 (by simp)]
    rw [hstep]
    exact ih (fun k hk => h k (by simp [hk])) _

/-- Projection of appended name lists. -/
theorem projNames_append (ns1 ns2 : List String) (m acc : FList) :
    projNames (ns1 ++ ns2) m acc = projNames ns2 m (projNames ns1 m acc) := by
  simp [projNames, List.foldl_append]

/-- Idempotence of the name projection. -/
theorem projNames_idem (ns : List String) (m : FList) :
    projNames ns (projNames ns m .nil) .nil = projNames ns m .nil := by
  refine projNames_congr ns _ m (fun k hk => ?_) .nil
  rw [lookup_projNames]
  rcases hv : m.lookup k with _ | v
  · simp [hv, FList.lookup]
  · simp [hv, hk]

/-- Evaluation of `selectObject` for a segment with no selectors and no
descendant flag: the destination is untouched. -/
theorem selObj_no_selectors (n : Nat) (fe : Fenv) (fx : Bool) (ch : SegList)
    (root : Value) (cur dst : FList) :
    selObj (n + 1) fe fx (Segment.mk [] ch false) root cur dst = dst := by
  simp [selObj, Segment.selectors, Segment.descendant, List.foldl]

/-- Evaluation of `processKey` at a leaf segment: copy the key if
present. -/
theorem processKey_leaf (n : Nat) (fe : Fenv) (fx : Bool) (k : String)
    (c : Segment) (root : Value) (cur dst : FList)
    (h : c.children.length = 0) :
    processKey (n + 1) fe fx k c root cur dst = projStep cur dst k := by
  simp only [processKey]
  rcases hv : cur.lookup k with _ | val
  · simp [projStep, hv]
  · simp [projStep, hv, h]

/-- Evaluation of `selectObject` at a name-leaf segment: project its
names. -/
theorem selObj_nameLeaf (n : Nat) (fe : Fenv) (fx : Bool) (c : Segment)
    (root : Value) (cur : FList) (h : isNameLeaf c = true) :
    ∀ dst, selObj (n + 2) fe fx c root cur dst =
      projNames (namesOfSels c.selectors) cur dst := by
  obtain ⟨hlen, hdesc, hsels⟩ : c.children.length = 0 ∧ c.descendant = false
      ∧ c.selectors.all isNameSel = true := by
    have := h
    simp only [isNameLeaf, Bool.and_eq_true, beq_iff_eq, Bool.not_eq_true'] at this
    exact ⟨this.1.1, this.1.2, this.2⟩
  intro dst
  simp only [selObj, hdesc]
  rw [if_neg (by simp [hdesc])]
  have key : ∀ (sels : List Selector), sels.all isNameSel = true → ∀ d,
      List.foldl
        (fun dst sel =>
          match sel with
          | .name nm => processKey (n + 1) fe fx nm c root cur dst
          | .wildcard =>
            FList.foldl (fun dst k _ => processKey (n + 1) fe fx k c root cur dst) dst cur
          | .filter f =>
            FList.foldl
              (fun dst k v =>
                if fe f v root then processKey (n + 1) fe fx k c root cur dst else dst)
              dst cur
          | _ => dst)
        d sels
      = projNames (namesOfSels sels) cur d := by
    intro sels
    induction sels with
    | nil => intro _ d; rfl
    | cons s rest ihs =>
      intro hall d
      have hs : isNameSel s = true ∧ rest.all isNameSel = true := by
        simpa [List.all_cons] using hall
      cases s with
      | name nm =>
        show List.foldl _ (processKey (n + 1) fe fx nm c root cur d) rest = _
        rw [ihs hs.2, processKey_leaf n fe fx nm c root cur d hlen]
        rfl
      | index i => simp [isNameSel] at hs
      | slice a b st => simp [isNameSel] at hs
      | wildcard => simp [isNameSel] at hs
      | filter f => simp [isNameSel] at hs
  exact key c.selectors hsels dst

/-- Induction over a child list's spine. -/
theorem segListInduct {P : SegList → Prop} (h0 : P .nil)
    (h1 : ∀ c tl, P tl → P (.cons c tl)) : ∀ l, P l
  | .nil => h0
  | .cons c tl => h1 c tl (segListInduct h0 h1 tl)

/-- Folding `selectObject` over name-leaf children projects their names in
order. -/
theorem segFold_nameLeaf (n : Nat) (fe : Fenv) (fx : Bool) (root : Value)
    (cur : FList) : ∀ (l : SegList), nameLeafChildren l = true → ∀ d,
    SegList.foldl (fun d c => selObj (n + 2) fe fx c root cur d) d l =
      projNames (namesOfChildren l) cur d := by
  intro l
  induction l using segListInduct with
  | h0 => intro _ d; rfl
  | h1 c tl ih =>
    intro h d
    have hc : isNameLeaf c = true ∧ nameLeafChildren tl = true := by
      simpa [nameLeafChildren] using h
    show SegList.foldl _ (selObj (n + 2) fe fx c root cur d) tl = _
    rw [selObj_nameLeaf n fe fx c root cur hc.1, ih hc.2,
      show namesOfChildren (SegList.cons c tl) =
        namesOfSels c.selectors ++ namesOfChildren tl from rfl,
      projNames_append]

/-- Evaluation of `selectObjectSegment` over a root with no selectors and
name-leaf children: the name projection of the source object. -/
theorem selObjSeg_nameLeaf (n : Nat) (fe : Fenv) (fx : Bool) (ch : SegList)
    (root : Value) (cur dst : FList) (h : nameLeafChildren ch = true) :
    selObjSeg (n + 3) fe fx (Segment.mk [] ch false) root cur dst =
      projNames (namesOfChildren ch) cur dst := by
  show SegList.foldl (fun d c => selObj (n + 2) fe fx c root cur d)
      (selObj (n + 2) fe fx (Segment.mk [] ch false) root cur dst) ch = _
  rw [selObj_no_selectors, segFold_nameLeaf n fe fx root cur ch h dst]

/-- Evaluation of `selectArray` at a name-leaf segment: names select
nothing from an array. -/
theorem selArr_nameLeaf (n : Nat) (fe : Fenv) (fx : Bool) (c : Segment)
    (root : Value) (cur : VList) (h : isNameLeaf c = true) :
    ∀ dst, selArr (n + 1) fe fx c root cur dst = dst := by
  obtain ⟨hdesc, hsels⟩ : c.descendant = false ∧ c.selectors.all isNameSel = true := by
    have := h
    simp only [isNameLeaf, Bool.and_eq_true, beq_iff_eq, Bool.not_eq_true'] at this
    exact ⟨this.1.2, this.2⟩
  intro dst
  simp only [selArr, hdesc]
  rw [if_neg (by simp [hdesc])]
  have key : ∀ (sels : List Selector), sels.all isNameSel = true → ∀ d,
      List.foldl
        (fun dst sel =>
          match sel with
          | .index i =>
            if i < (cur.length : Int) then
              if 0 ≤ i then processIdx n fe fx i.toNat c root cur dst else dst
            else dst
          | .wildcard =>
            VList.foldlIdx (fun dst i _ => processIdx n fe fx i c root cur dst) 0 dst cur
          | .slice a b st => processSlice n fe fx c a b st root cur dst
          | .filter f =>
            VList.foldlIdx
              (fun dst i v => if fe f v root then processIdx n fe fx i c root cur dst else dst)
              0 dst cur
          | _ => dst)
        d sels = d := by
    intro sels
    induction sels with
    | nil => intro _ d; rfl
    | cons s rest ihs =>
      intro hall d
      have hs : isNameSel s = true ∧ rest.all isNameSel = true := by
        simpa [List.all_cons] using hall
      cases s with
      | name nm => exact ihs hs.2 d
      | index i => simp [isNameSel] at hs
      | slice a b st => simp [isNameSel] at hs
      | wildcard => simp [isNameSel] at hs
      | filter f => simp [isNameSel] at hs
  exact key c.selectors hsels dst

/-- Evaluation of `selectArraySegment` over a root with no selectors and
name-leaf children: nothing is selected from an array. -/
theorem selArrSeg_nameLeaf (n : Nat) (fe : Fenv) (fx : Bool) (ch : SegList)
    (root : Value) (xs : VList) (h : nameLeafChildren ch = true) :
    selArrSeg (n + 2) fe fx (Segment.mk [] ch false) root xs .nil = .nil := by
  show SegList.foldl (fun d c => selArr (n + 1) fe fx c root xs d)
      (selArr (n + 1) fe fx (Segment.mk [] ch false) root xs .nil) ch = _
  rw [selArr_no_selectors]
  have key : ∀ (l : SegList), nameLeafChildren l = true → ∀ d,
      SegList.foldl (fun d c => selArr (n + 1) fe fx c root xs d) d l = d := by
    intro l
    induction l using segListInduct with
    | h0 => intro _ d; rfl
    | h1 c tl ih =>
      intro hl d
      have hc : isNameLeaf c = true ∧ nameLeafChildren tl = true := by
        simpa [nameLeafChildren] using hl
      show SegList.foldl _ (selArr (n + 1) fe fx c root xs d) tl = _
      rw [selArr_nameLeaf n fe fx c root xs hc.1, ih hc.2]
  exact key ch h .nil

/-- Values stored in a sentinel-free object are sentinel-free. -/
theorem FList.lookup_noSent : ∀ (m : FList), noSentFL m = true →
    ∀ k v, m.lookup k = some v → noSent v = true
  | .nil, _, k, v, h => by simp [FList.lookup] at h
  | .cons k0 v0 tl, hm, k, v, h => by
    have hm' : noSent v0 = true ∧ noSentFL tl = true := by simpa [noSentFL] using hm
    by_cases h0 : k0 = k
    · rw [FList.lookup, if_pos h0] at h
      cases h
      exact hm'.1
    · rw [FList.lookup, if_neg h0] at h
      exact FList.lookup_noSent tl hm'.2 k v h

/-- Writing a sentinel-free value preserves object sentinel-freedom. -/
theorem FList.setKey_noSent : ∀ (m : FList), noSentFL m = true →
    ∀ k v, noSent v = true → noSentFL (m.setKey k v) = true
  | .nil, _, k, v, hv => by simp [FList.setKey, noSentFL, hv]
  | .cons k0 v0 tl, hm, k, v, hv => by
    have hm' : noSent v0 = true ∧ noSentFL tl = true := by simpa [noSentFL] using hm
    by_cases h0 : k0 = k
    · simp [FList.setKey, h0, noSentFL, hv, hm'.2]
    · simp [FList.setKey, h0, noSentFL, hm'.1, FList.setKey_noSent tl hm'.2 k v hv]

/-- The name projection of sentinel-free objects is sentinel-free. -/
theorem projNames_noSent (ns : List String) (m : FList) (hm : noSentFL m = true) :
    ∀ acc, noSentFL acc = true → noSentFL (projNames ns m acc) = true := by
  induction ns with
  | nil => intro acc h; exact h
  | cons k0 rest ih =>
    intro acc hacc
    show noSentFL (projNames rest m (projStep m acc k0)) = true
    refine ih _ ?_
    rcases hv : m.lookup k0 with _ | v0
    · simpa [projStep, hv] using hacc
    · simpa [projStep, hv] using
        FList.setKey_noSent acc hacc k0 v0 (FList.lookup_noSent m hm k0 v0 hv)

/-- Equation of `compressObject` as a value map over the members. -/
theorem compressFL_eq_mapFL : ∀ fs, compressFL fs = mapFL cvV fs
  | .nil => rfl
  | .cons k v tl => by
    cases v <;> simp [compressFL, mapFL, cvV, compressFL_eq_mapFL tl]

/-- Lookup through a value map. -/
theorem lookup_mapFL (f : Value → Value) : ∀ (m : FList) (k : String),
    (mapFL f m).lookup k = (m.lookup k).map f
  | .nil, k => rfl
  | .cons k0 v0 tl, k => by
    by_cases h0 : k0 = k
    · simp [mapFL, FList.lookup, h0]
    · simp [mapFL, FList.lookup, h0, lookup_mapFL f tl k]

/-- Writing through a value map. -/
theorem setKey_mapFL (f : Value → Value) : ∀ (m : FList) (k : String) (v : Value),
    mapFL f (m.setKey k v) = (mapFL f m).setKey k (f v)
  | .nil, k, v => rfl
  | .cons k0 v0 tl, k, v => by
    by_cases h0 : k0 = k
    · simp [mapFL, FList.setKey, h0]
    · simp [mapFL, FList.setKey, h0, setKey_mapFL f tl k v]

/-- The name projection commutes with a value map over source and
accumulator. -/
theorem projNames_mapFL (f : Value → Value) (ns : List String) :
    ∀ (m acc : FList),
      projNames ns (mapFL f m) (mapFL f acc) = mapFL f (projNames ns m acc) := by
  induction ns with
  | nil => intro m acc; rfl
  | cons k0 rest ih =>
    intro m acc
    show projNames rest (mapFL f m) (projStep (mapFL f m) (mapFL f acc) k0) = _
    have hstep : projStep (mapFL f m) (mapFL f acc) k0 = mapFL f (projStep m acc k0) := by
      rcases hv : m.lookup k0 with _ | v0
      · simp [projStep, lookup_mapFL, hv]
      · simp [projStep, lookup_mapFL, hv, setKey_mapFL]
    rw [hstep]
    exact ih m (projStep m acc k0)

mutual

/-- Idempotence of `compressArray` on sentinel-free arrays: the first pass
leaves no unselected slot and no sentinel, so a second pass is the
identity. -/
theorem compressVL_idem : ∀ xs, noSentVL xs = true →
    compressVL (compressVL xs) = compressVL xs
  | .nil, _ => rfl
  | .cons .nil tl, h => by
    have h' : noSentVL tl = true := by simpa [noSentVL, noSent] using h
    show compressVL (compressVL tl) = compressVL tl
    exact compressVL_idem tl h'
  | .cons .sentinel tl, h => by
    simp [noSentVL, noSent] at h
  | .cons (.bool b) tl, h => by
    have h' : noSentVL tl = true := by simpa [noSentVL, noSent] using h
    show VList.cons (.bool b) (compressVL (compressVL tl)) = VList.cons (.bool b) (compressVL tl)
    rw [compressVL_idem tl h']
  | .cons (.num n) tl, h => by
    have h' : noSentVL tl = true := by simpa [noSentVL, noSent] using h
    show VList.cons (.num n) (compressVL (compressVL tl)) = VList.cons (.num n) (compressVL tl)
    rw [compressVL_idem tl h']
  | .cons (.str s) tl, h => by
    have h' : noSentVL tl = true := by simpa [noSentVL, noSent] using h
    show VList.cons (.str s) (compressVL (compressVL tl)) = VList.cons (.str s) (compressVL tl)
    rw [compressVL_idem tl h']
  | .cons (.arr xs) tl, h => by
    have h' : noSentVL xs = true ∧ noSentVL tl = true := by
      simpa [noSentVL, noSent] using h
    show VList.cons (.arr (compressVL (compressVL xs))) (compressVL (compressVL tl)) = _
    rw [compressVL_idem xs h'.1, compressVL_idem tl h'.2]
    rfl
  | .cons (.obj fs) tl, h => by
    have h' : noSentFL fs = true ∧ noSentVL tl = true := by
      simpa [noSentVL, noSent] using h
    show VList.cons (.obj (compressFL (compressFL fs))) (compressVL (compressVL tl)) = _
    rw [compressFL_idem fs h'.1, compressVL_idem tl h'.2]
    rfl

/-- Idempotence of `compressObject` on sentinel-free objects. -/
theorem compressFL_idem : ∀ fs, noSentFL fs = true →
    compressFL (compressFL fs) = compressFL fs
  | .nil, _ => rfl
  | .cons k (.arr xs) tl, h => by
    have h' : noSentVL xs = true ∧ noSentFL tl = true := by
      simpa [noSentFL, noSent] using h
    show FList.cons k (.arr (compressVL (compressVL xs))) (compressFL (compressFL tl)) = _
    rw [compressVL_idem xs h'.1, compressFL_idem tl h'.2]
    rfl
  | .cons k (.obj fs) tl, h => by
    have h' : noSentFL fs = true ∧ noSentFL tl = true := by
      simpa [noSentFL, noSent] using h
    show FList.cons k (.obj (compressFL (compressFL fs))) (compressFL (compressFL tl)) = _
    rw [compressFL_idem fs h'.1, compressFL_idem tl h'.2]
    rfl
  | .cons k .nil tl, h => by
    have h' : noSentFL tl = true := by simpa [noSentFL, noSent] using h
    show FList.cons k .nil (compressFL (compressFL tl)) = _
    rw [compressFL_idem tl h']
    rfl
  | .cons k .sentinel tl, h => by
    simp [noSentFL, noSent] at h
  | .cons k (.bool b) tl, h => by
    have h' : noSentFL tl = true := by simpa [noSentFL, noSent] using h
    show FList.cons k (.bool b) (compressFL (compressFL tl)) = _
    rw [compressFL_idem tl h']
    rfl
  | .cons k (.num n) tl, h => by
    have h' : noSentFL tl = true := by simpa [noSentFL, noSent] using h
    show FList.cons k (.num n) (compressFL (compressFL tl)) = _
    rw [compressFL_idem tl h']
    rfl
  | .cons k (.str s) tl, h => by
    have h' : noSentFL tl = true := by simpa [noSentFL, noSent] using h
    show FList.cons k (.str s) (compressFL (compressFL tl)) = _
    rw [compressFL_idem tl h']
    rfl

end

/-- Idempotence of the member compression on sentinel-free values. -/
theorem cvV_idem : ∀ v, noSent v = true → cvV (cvV v) = cvV v
  | .nil, _ => rfl
  | .bool _, _ => rfl
  | .num _, _ => rfl
  | .str _, _ => rfl
  | .sentinel, _ => rfl
  | .arr xs, h => by
    show Value.arr (compressVL (compressVL xs)) = Value.arr (compressVL xs)
    rw [compressVL_idem xs (by simpa [noSent] using h)]
  | .obj fs, h => by
    show Value.obj (compressFL (compressFL fs)) = Value.obj (compressFL fs)
    rw [compressFL_idem fs (by simpa [noSent] using h)]

/-- Idempotence of the value map by member compression. -/
theorem mapFL_cvV_idem : ∀ m, noSentFL m = true →
    mapFL cvV (mapFL cvV m) = mapFL cvV m
  | .nil, _ => rfl
  | .cons k v tl, h => by
    have h' : noSent v = true ∧ noSentFL tl = true := by simpa [noSentFL] using h
    show FList.cons k (cvV (cvV v)) (mapFL cvV (mapFL cvV tl)) = _
    rw [cvV_idem v h'.1, mapFL_cvV_idem tl h'.2]
    rfl

/-- Unfolding of `Select` on an object input with a non-childless root. -/
theorem select_obj_unfold (fe : Fenv) (fx : Bool) (root : Segment) (fs : FList)
    (h : root.children.length ≠ 0) :
    Select fe (Tree.mk root fx) (.obj fs) =
      (if fx then Value.obj (selObjSeg (evalFuel (.obj fs)) fe fx root (.obj fs) fs .nil)
       else Value.obj (compressFL (selObjSeg (evalFuel (.obj fs)) fe fx root (.obj fs) fs .nil))) := by
  unfold Select
  rw [if_neg h]

/-- Unfolding of `Select` on an array input with a non-childless root. -/
theorem select_arr_unfold (fe : Fenv) (fx : Bool) (root : Segment) (xs : VList)
    (h : root.children.length ≠ 0) :
    Select fe (Tree.mk root fx) (.arr xs) =
      (if (selArrSeg (evalFuel (.arr xs)) fe fx root (.arr xs) xs .nil) ≠ .nil then
        (if fx then Value.arr (selArrSeg (evalFuel (.arr xs)) fe fx root (.arr xs) xs .nil)
         else Value.arr (compressVL (selArrSeg (evalFuel (.arr xs)) fe fx root (.arr xs) xs .nil)))
       else Value.arr .nil) := by
  unfold Select
  rw [if_neg h]

/-- Unfolding of `Select` on a scalar or null input with a non-childless
root. -/
theorem select_scalar_unfold (fe : Fenv) (fx : Bool) (root : Segment) (v : Value)
    (h : root.children.length ≠ 0) (hv : notObjArr v = true) :
    Select fe (Tree.mk root fx) v = .nil := by
  unfold Select
  rw [if_neg h]
  cases v <;> simp_all [notObjArr]

/-- C2 amended: projection is idempotent for every tree whose root is a
plain segment (no selectors, non-descendant — as compilation produces) and
whose root children are all non-descendant leaf segments carrying only Name
selectors, on every sentinel-free input, in both ordered and fixed mode. -/
theorem c2_select_idempotent_name_leaves (fe : Fenv) (t : Tree) (v : Value)
    (hsel : t.root.selectors = []) (hdesc : t.root.descendant = false)
    (hch : nameLeafChildren t.root.children = true) (hv : noSent v = true) :
    Select fe t (Select fe t v) = Select fe t v := by
  obtain ⟨root, fx⟩ := t
  obtain ⟨rsels, rch, rdesc⟩ := root
  simp only [Tree.root, Segment.selectors, Segment.descendant, Segment.children] at hsel hdesc hch
  subst hsel
  subst hdesc
  by_cases hnil : rch = SegList.nil
  · subst hnil
    have h1 : (Tree.mk (Segment.mk [] SegList.nil false) fx).root.children = SegList.nil := rfl
    rw [select_nil_children _ _ _ h1, select_nil_children _ _ _ h1]
  · have hlen0 : rch.length ≠ 0 := by
      cases rch with
      | nil => exact absurd rfl hnil
      | cons c tl => simp [SegList.length]
    cases v with
    | obj fs =>
      have hfs : noSentFL fs = true := by simpa [noSent] using hv
      obtain ⟨m1, hm1⟩ : ∃ m, evalFuel (.obj fs) = m + 3 :=
        ⟨evalFuel (.obj fs) - 3, by unfold evalFuel; omega⟩
      have hfirst :
          Select fe (Tree.mk (Segment.mk [] rch false) fx) (.obj fs) =
            (if fx then Value.obj (projNames (namesOfChildren rch) fs .nil)
             else Value.obj (compressFL (projNames (namesOfChildren rch) fs .nil))) := by
        rw [select_obj_unfold fe fx (Segment.mk [] rch false) fs hlen0, hm1,
          selObjSeg_nameLeaf m1 fe fx rch (.obj fs) fs .nil hch]
      set ns := namesOfChildren rch with hns
      set m' := projNames ns fs .nil with hm'
      have hm'noSent : noSentFL m' = true := projNames_noSent ns fs hfs .nil rfl
      cases fx with
      | true =>
        rw [hfirst]
        simp only [if_true]
        obtain ⟨m2, hm2⟩ : ∃ m, evalFuel (.obj m') = m + 3 :=
          ⟨evalFuel (.obj m') - 3, by unfold evalFuel; omega⟩
        rw [select_obj_unfold fe true (Segment.mk [] rch false) m' hlen0, hm2,
          selObjSeg_nameLeaf m2 fe true rch (.obj m') m' .nil hch]
        simp only [if_true]
        rw [hm', projNames_idem]
      | false =>
        rw [hfirst]
        simp only [Bool.false_eq_true, if_false]
        have hcomp : compressFL m' = mapFL cvV m' := compressFL_eq_mapFL m'
        obtain ⟨m2, hm2⟩ : ∃ m, evalFuel (.obj (compressFL m')) = m + 3 :=
          ⟨evalFuel (.obj (compressFL m')) - 3, by unfold evalFuel; omega⟩
        rw [select_obj_unfold fe false (Segment.mk [] rch false) (compressFL m') hlen0, hm2,
          selObjSeg_nameLeaf m2 fe false rch (.obj (compressFL m')) (compressFL m') .nil hch]
        simp only [Bool.false_eq_true, if_false]
        have hinner : projNames ns (compressFL m') .nil = mapFL cvV m' := by
          rw [hcomp, show (FList.nil : FList) = mapFL cvV .nil from rfl,
            projNames_mapFL cvV ns m' .nil]
          rw [hm', projNames_idem]
        rw [hinner]
        rw [compressFL_eq_mapFL (mapFL cvV m'), mapFL_cvV_idem m' hm'noSent, hcomp]
    | arr xs =>
      obtain ⟨m1, hm1⟩ : ∃ m, evalFuel (.arr xs) = m + 2 :=
        ⟨evalFuel (.arr xs) - 2, by unfold evalFuel; omega⟩
      have hfirst :
          Select fe (Tree.mk (Segment.mk [] rch false) fx) (.arr xs) = .arr .nil := by
        rw [select_arr_unfold fe fx (Segment.mk [] rch false) xs hlen0, hm1,
          selArrSeg_nameLeaf m1 fe fx rch (.arr xs) xs hch]
        simp
      obtain ⟨m2, hm2⟩ : ∃ m, evalFuel (.arr .nil) = m + 2 :=
        ⟨evalFuel (.arr .nil) - 2, by unfold evalFuel; omega⟩
      rw [hfirst, select_arr_unfold fe fx (Segment.mk [] rch false) .nil hlen0, hm2,
        selArrSeg_nameLeaf m2 fe fx rch (.arr .nil) .nil hch]
      simp
    | nil =>
      rw [select_scalar_unfold fe fx (Segment.mk [] rch false) Value.nil hlen0 rfl,
        select_scalar_unfold fe fx (Segment.mk [] rch false) Value.nil hlen0 rfl]
    | bool b =>
      rw [select_scalar_unfold fe fx (Segment.mk [] rch false) (Value.bool b) hlen0 rfl,
        select_scalar_unfold fe fx (Segment.mk [] rch false) Value.nil hlen0 rfl]
    | num n =>
      rw [select_scalar_unfold fe fx (Segment.mk [] rch false) (Value.num n) hlen0 rfl,
        select_scalar_unfold fe fx (Segment.mk [] rch false) Value.nil hlen0 rfl]
    | str s =>
      rw [select_scalar_unfold fe fx (Segment.mk [] rch false) (Value.str s) hlen0 rfl,
        select_scalar_unfold fe fx (Segment.mk [] rch false) Value.nil hlen0 rfl]
    | sentinel =>
      rw [select_scalar_unfold fe fx (Segment.mk [] rch false) Value.sentinel hlen0 rfl,
        select_scalar_unfold fe fx (Segment.mk [] rch false) Value.nil hlen0 rfl]

/-- Witness for C2 amended: the ordered-mode tree selecting names `a` and
`b`, applied twice to a concrete object with an extra key and a nested
array holding a null. -/
theorem c2_select_idempotent_name_leaves_witness :
    Select (fun _ _ _ => false)
        (Tree.mk (Segment.mk []
          (.cons (Segment.mk [.name "a", .name "b"] .nil false) .nil) false) false)
        (Select (fun _ _ _ => false)
          (Tree.mk (Segment.mk []
            (.cons (Segment.mk [.name "a", .name "b"] .nil false) .nil) false) false)
          (.obj (.cons "a" (.arr (.cons .nil (.cons (.num 2) .nil)))
            (.cons "c" (.num 9) .nil))))
      =
      Select (fun _ _ _ => false)
        (Tree.mk (Segment.mk []
          (.cons (Segment.mk [.name "a", .name "b"] .nil false) .nil) false) false)
        (.obj (.cons "a" (.arr (.cons .nil (.cons (.num 2) .nil)))
          (.cons "c" (.num 9) .nil))) :=
  c2_select_idempotent_name_leaves _ _ _ (by decide) (by decide) (by decide) (by decide)

mutual

/-- Evaluator invariant on values: no sentinel appears, except (in ordered
mode, `fx = false`) directly as an array element, where `insert` places
it. -/
def okV (fx : Bool) : Value → Bool
  | .sentinel => false
  | .arr xs => okVL fx xs
  | .obj fs => okFL fx fs
  | _ => true

/-- Evaluator invariant on destination slices: each element is a sentinel
(ordered mode only) or an invariant-satisfying value. -/
def okVL (fx : Bool) : VList → Bool
  | .nil => true
  | .cons v tl =>
    (match v with
     | .sentinel => !fx
     | w => okV fx w) && okVL fx tl

/-- Evaluator invariant on destination objects: members never hold a
sentinel directly. -/
def okFL (fx : Bool) : FList → Bool
  | .nil => true
  | .cons _ v tl => okV fx v && okFL fx tl

end

/-- Invariant of one slice element. -/
def okElem (fx : Bool) (v : Value) : Bool :=
  match v with
  | .sentinel => !fx
  | w => okV fx w

/-- Unfolding of the slice invariant at a cons. -/
theorem okVL_cons (fx : Bool) (v : Value) (tl : VList) :
    okVL fx (.cons v tl) = (okElem fx v && okVL fx tl) := by
  cases v <;> rfl

/-- An invariant value is also a valid slice element. -/
theorem okV_okElem (fx : Bool) (v : Value) (h : okV fx v = true) :
    okElem fx v = true := by
  cases v <;> simp_all [okV, okElem]

mutual

/-- Sentinel-free values satisfy the invariant in either mode. -/
theorem noSent_okV (fx : Bool) : ∀ v, noSent v = true → okV fx v = true
  | .nil, _ => rfl
  | .bool _, _ => rfl
  | .num _, _ => rfl
  | .str _, _ => rfl
  | .sentinel, h => by simp [noSent] at h
  | .arr xs, h => noSent_okVL fx xs (by simpa [noSent] using h)
  | .obj fs, h => noSent_okFL fx fs (by simpa [noSent] using h)

/-- Sentinel-free slices satisfy the invariant. -/
theorem noSent_okVL (fx : Bool) : ∀ xs, noSentVL xs = true → okVL fx xs = true
  | .nil, _ => rfl
  | .cons v tl, h => by
    have h' : noSent v = true ∧ noSentVL tl = true := by simpa [noSentVL] using h
    rw [okVL_cons]
    simp [okV_okElem fx v (noSent_okV fx v h'.1), noSent_okVL fx tl h'.2]

/-- Sentinel-free objects satisfy the invariant. -/
theorem noSent_okFL (fx : Bool) : ∀ fs, noSentFL fs = true → okFL fx fs = true
  | .nil, _ => rfl
  | .cons k v tl, h => by
    have h' : noSent v = true ∧ noSentFL tl = true := by simpa [noSentFL] using h
    simp [okFL, noSent_okV fx v h'.1, noSent_okFL fx tl h'.2]

end

mutual

/-- In fixed mode the invariant is exactly sentinel-freedom. -/
theorem okV_true_noSent : ∀ v, okV true v = true → noSent v = true
  | .nil, _ => rfl
  | .bool _, _ => rfl
  | .num _, _ => rfl
  | .str _, _ => rfl
  | .sentinel, h => by simp [okV] at h
  | .arr xs, h => by
    simp only [noSent]
    exact okVL_true_noSent xs (by simpa [okV] using h)
  | .obj fs, h => by
    simp only [noSent]
    exact okFL_true_noSent fs (by simpa [okV] using h)

/-- Fixed-mode invariant slices are sentinel-free. -/
theorem okVL_true_noSent : ∀ xs, okVL true xs = true → noSentVL xs = true
  | .nil, _ => rfl
  | .cons v tl, h => by
    rw [okVL_cons] at h
    have h' : okElem true v = true ∧ okVL true tl = true := by simpa using h
    have hv : okV true v = true := by
      cases v <;> simp_all [okElem]
    simp [noSentVL, okV_true_noSent v hv, okVL_true_noSent tl h'.2]

/-- Fixed-mode invariant objects are sentinel-free. -/
theorem okFL_true_noSent : ∀ fs, okFL true fs = true → noSentFL fs = true
  | .nil, _ => rfl
  | .cons k v tl, h => by
    have h' : okV true v = true ∧ okFL true tl = true := by simpa [okFL] using h
    simp [noSentFL, okV_true_noSent v h'.1, okFL_true_noSent tl h'.2]

end

mutual

/-- The compression pass removes every sentinel from an ordered-mode
invariant slice. -/
theorem compressVL_ok_noSent : ∀ xs, okVL false xs = true →
    noSentVL (compressVL xs) = true
  | .nil, _ => rfl
  | .cons .sentinel tl, h => by
    have h' : okVL false tl = true := by
      rw [okVL_cons] at h
      simp only [Bool.and_eq_true] at h
      exact h.2
    show noSentVL (.cons .nil (compressVL tl)) = true
    simpa [noSentVL, noSent] using compressVL_ok_noSent tl h'
  | .cons .nil tl, h => by
    have h' : okVL false tl = true := by
      rw [okVL_cons] at h
      simp only [Bool.and_eq_true] at h
      exact h.2
    show noSentVL (compressVL tl) = true
    exact compressVL_ok_noSent tl h'
  | .cons (.bool b) tl, h => by
    have h' : okVL false tl = true := by
      rw [okVL_cons] at h
      simpa [okElem, okV] using h
    simpa [compressVL, noSentVL, noSent] using compressVL_ok_noSent tl h'
  | .cons (.num n) tl, h => by
    have h' : okVL false tl = true := by
      rw [okVL_cons] at h
      simpa [okElem, okV] using h
    simpa [compressVL, noSentVL, noSent] using compressVL_ok_noSent tl h'
  | .cons (.str s) tl, h => by
    have h' : okVL false tl = true := by
      rw [okVL_cons] at h
      simpa [okElem, okV] using h
    simpa [compressVL, noSentVL, noSent] using compressVL_ok_noSent tl h'
  | .cons (.arr xs) tl, h => by
    have h' : okVL false xs = true ∧ okVL false tl = true := by
      rw [okVL_cons] at h
      simpa [okElem, okV] using h
    simpa [compressVL, noSentVL, noSent] using
      And.intro (compressVL_ok_noSent xs h'.1) (compressVL_ok_noSent tl h'.2)
  | .cons (.obj fs) tl, h => by
    have h' : okFL false fs = true ∧ okVL false tl = true := by
      rw [okVL_cons] at h
      simpa [okElem, okV] using h
    simpa [compressVL, noSentVL, noSent] using
      And.intro (compressFL_ok_noSent fs h'.1) (compressVL_ok_noSent tl h'.2)

/-- The compression pass removes every sentinel below an ordered-mode
invariant object. -/
theorem compressFL_ok_noSent : ∀ fs, okFL false fs = true →
    noSentFL (compressFL fs) = true
  | .nil, _ => rfl
  | .cons k v tl, h => by
    have h' : okV false v = true ∧ okFL false tl = true := by simpa [okFL] using h
    cases v with
    | sentinel => simp [okV] at h'
    | arr xs =>
      simpa [compressFL, noSentFL, noSent] using
        And.intro (compressVL_ok_noSent xs (by simpa [okV] using h'.1))
          (compressFL_ok_noSent tl h'.2)
    | obj fs' =>
      simpa [compressFL, noSentFL, noSent] using
        And.intro (compressFL_ok_noSent fs' (by simpa [okV] using h'.1))
          (compressFL_ok_noSent tl h'.2)
    | nil => simpa [compressFL, noSentFL, noSent] using compressFL_ok_noSent tl h'.2
    | bool b => simpa [compressFL, noSentFL, noSent] using compressFL_ok_noSent tl h'.2
    | num n => simpa [compressFL, noSentFL, noSent] using compressFL_ok_noSent tl h'.2
    | str s => simpa [compressFL, noSentFL, noSent] using compressFL_ok_noSent tl h'.2

end

/-- Values stored in an invariant object are invariant. -/
theorem FList.lookup_okV (fx : Bool) : ∀ (m : FList), okFL fx m = true →
    ∀ k v, m.lookup k = some v → okV fx v = true
  | .nil, _, k, v, h => by simp [FList.lookup] at h
  | .cons k0 v0 tl, hm, k, v, h => by
    have hm' : okV fx v0 = true ∧ okFL fx tl = true := by simpa [okFL] using hm
    by_cases h0 : k0 = k
    · rw [FList.lookup, if_pos h0] at h
      cases h
      exact hm'.1
    · rw [FList.lookup, if_neg h0] at h
      exact FList.lookup_okV fx tl hm'.2 k v h

/-- Go's `dst[key]` read (absent keys read as nil) is invariant. -/
theorem FList.lookup_getD_okV (fx : Bool) (m : FList) (h : okFL fx m = true)
    (k : String) : okV fx ((m.lookup k).getD .nil) = true := by
  rcases hv : m.lookup k with _ | v
  · rfl
  · simpa using FList.lookup_okV fx m h k v hv

/-- Writing an invariant value preserves the object invariant. -/
theorem FList.setKey_okFL (fx : Bool) : ∀ (m : FList), okFL fx m = true →
    ∀ k v, okV fx v = true → okFL fx (m.setKey k v) = true
  | .nil, _, k, v, hv => by simp [FList.setKey, okFL, hv]
  | .cons k0 v0 tl, hm, k, v, hv => by
    have hm' : okV fx v0 = true ∧ okFL fx tl = true := by simpa [okFL] using hm
    by_cases h0 : k0 = k
    · simp [FList.setKey, h0, okFL, hv, hm'.2]
    · simp [FList.setKey, h0, okFL, hm'.1, FList.setKey_okFL fx tl hm'.2 k v hv]

/-- Elements read from an invariant slice are valid elements (out-of-range
reads are nil). -/
theorem VList.getD_okElem (fx : Bool) : ∀ (xs : VList), okVL fx xs = true →
    ∀ i, okElem fx (xs.getD i) = true
  | .nil, _, i => by cases i <;> rfl
  | .cons v tl, h, i => by
    rw [okVL_cons] at h
    have h' : okElem fx v = true ∧ okVL fx tl = true := by simpa using h
    cases i with
    | zero => exact h'.1
    | succ j => exact VList.getD_okElem fx tl h'.2 j

/-- Elements read from a sentinel-free slice are sentinel-free. -/
theorem VList.getD_noSent : ∀ (xs : VList), noSentVL xs = true →
    ∀ i, noSent (xs.getD i) = true
  | .nil, _, i => by cases i <;> rfl
  | .cons v tl, h, i => by
    have h' : noSent v = true ∧ noSentVL tl = true := by simpa [noSentVL] using h
    cases i with
    | zero => exact h'.1
    | succ j => exact VList.getD_noSent tl h'.2 j

/-- Writing a valid element preserves the slice invariant. -/
theorem VList.set_okVL (fx : Bool) : ∀ (xs : VList), okVL fx xs = true →
    ∀ i v, okElem fx v = true → okVL fx (xs.set i v) = true
  | .nil, h, i, v, hv => by cases i <;> exact h
  | .cons w tl, h, i, v, hv => by
    rw [okVL_cons] at h
    have h' : okElem fx w = true ∧ okVL fx tl = true := by simpa using h
    cases i with
    | zero =>
      rw [show (VList.cons w tl).set 0 v = .cons v tl from rfl, okVL_cons]
      simp [hv, h'.2]
    | succ j =>
      rw [show (VList.cons w tl).set (j + 1) v = .cons w (tl.set j v) from rfl, okVL_cons]
      simp [h'.1, VList.set_okVL fx tl h'.2 j v hv]

/-- Appending invariant slices preserves the invariant. -/
theorem VList.append_okVL (fx : Bool) : ∀ (a : VList), okVL fx a = true →
    ∀ b, okVL fx b = true → okVL fx (a.append b) = true
  | .nil, _, b, hb => hb
  | .cons v tl, h, b, hb => by
    rw [okVL_cons] at h
    have h' : okElem fx v = true ∧ okVL fx tl = true := by simpa using h
    rw [show (VList.cons v tl).append b = .cons v (tl.append b) from rfl, okVL_cons]
    simp [h'.1, VList.append_okVL fx tl h'.2 b hb]

/-- Replicated nil slots are invariant. -/
theorem VList.replicate_okVL (fx : Bool) : ∀ n, okVL fx (VList.replicate n .nil) = true
  | 0 => rfl
  | n + 1 => by
    rw [show VList.replicate (n + 1) .nil = .cons .nil (VList.replicate n .nil) from rfl,
      okVL_cons]
    simp [okElem, okV, VList.replicate_okVL fx n]

/-- Growing a destination preserves the invariant (new slots are nil). -/
theorem VList.growTo_okVL (fx : Bool) (xs : VList) (h : okVL fx xs = true)
    (n : Nat) : okVL fx (xs.growTo n) = true :=
  VList.append_okVL fx xs h _ (VList.replicate_okVL fx _)

/-- Truncating a destination preserves the invariant. -/
theorem VList.take_okVL (fx : Bool) : ∀ (xs : VList), okVL fx xs = true →
    ∀ n, okVL fx (xs.take n) = true
  | .nil, _, n => by cases n <;> rfl
  | .cons v tl, h, n => by
    rw [okVL_cons] at h
    have h' : okElem fx v = true ∧ okVL fx tl = true := by simpa using h
    cases n with
    | zero => rfl
    | succ j =>
      rw [show (VList.cons v tl).take (j + 1) = .cons v (tl.take j) from rfl, okVL_cons]
      simp [h'.1, VList.take_okVL fx tl h'.2 j]

/-- The `insert` write preserves the destination invariant: it writes the
sentinel only in ordered mode, and otherwise an invariant value. -/
theorem insert_okVL (fx : Bool) (idx : Nat) (dst : VList) (val : Value)
    (hd : okVL fx dst = true) (hv : okV fx val = true) :
    okVL fx (insert fx idx dst val) = true := by
  unfold insert
  have hgrow : okVL fx (if dst.length ≤ idx then dst.growTo (idx + 1) else dst) = true := by
    by_cases h : dst.length ≤ idx
    · simpa [h] using VList.growTo_okVL fx dst hd (idx + 1)
    · simpa [h] using hd
  by_cases hnil : (!fx && decide (val = Value.nil)) = true
  · rw [if_pos hnil]
    refine VList.set_okVL fx _ hgrow idx _ ?_
    have : fx = false := by
      rcases fx <;> simp_all
    simp [okElem, this]
  · rw [if_neg hnil]
    exact VList.set_okVL fx _ hgrow idx _ (okV_okElem fx val hv)

/-- Preservation of a property through a fold over a selector list. -/
theorem listFoldPreserve {α β : Type} (P : α → Prop) (f : α → β → α)
    (h : ∀ acc b, P acc → P (f acc b)) : ∀ (l : List β) (acc : α), P acc →
    P (l.foldl f acc)
  | [], acc, hacc => hacc
  | b :: tl, acc, hacc => listFoldPreserve P f h tl (f acc b) (h acc b hacc)

/-- Preservation of a property through a fold over children. -/
theorem segListFoldPreserve {α : Type} (P : α → Prop) (f : α → Segment → α)
    (h : ∀ acc c, P acc → P (f acc c)) : ∀ (l : SegList) (acc : α), P acc →
    P (SegList.foldl f acc l)
  | .nil, acc, hacc => hacc
  | .cons c tl, acc, hacc => segListFoldPreserve P f h tl (f acc c) (h acc c hacc)

/-- Preservation of a property through a fold over a sentinel-free object's
members. -/
theorem flistFoldPreserve {α : Type} (P : α → Prop) (f : α → String → Value → α)
    (h : ∀ acc k v, noSent v = true → P acc → P (f acc k v)) :
    ∀ (m : FList), noSentFL m = true → ∀ (acc : α), P acc →
      P (FList.foldl f acc m)
  | .nil, _, acc, hacc => hacc
  | .cons k v tl, hm, acc, hacc => by
    have hm' : noSent v = true ∧ noSentFL tl = true := by simpa [noSentFL] using hm
    exact flistFoldPreserve P f h tl hm'.2 (f acc k v) (h acc k v hm'.1 hacc)

/-- Preservation of a property through an indexed fold over a sentinel-free
slice's elements. -/
theorem vlistFoldIdxPreserve {α : Type} (P : α → Prop) (f : α → Nat → Value → α)
    (h : ∀ acc i v, noSent v = true → P acc → P (f acc i v)) :
    ∀ (xs : VList), noSentVL xs = true → ∀ (i : Nat) (acc : α), P acc →
      P (VList.foldlIdx f i acc xs)
  | .nil, _, i, acc, hacc => hacc
  | .cons v tl, hm, i, acc, hacc => by
    have hm' : noSent v = true ∧ noSentVL tl = true := by simpa [noSentVL] using hm
    exact vlistFoldIdxPreserve P f h tl hm'.2 (i + 1) (f acc i v) (h acc i v hm'.1 hacc)

/-- Invariant preservation of the whole evaluator, for every fuel value:
given a sentinel-free source and an invariant destination, every evaluator
function returns an invariant destination (and `dispatchObject` returns an
invariant object when it returns one).  In fixed mode the invariant is
sentinel-freedom; in ordered mode sentinels may appear only as direct array
elements, where the compression pass removes them. -/
theorem evalOk (fe : Fenv) (fx : Bool) : ∀ (n : Nat) (root : Value),
    (∀ seg cur dst, noSentFL cur = true → okFL fx dst = true →
        okFL fx (selObjSeg n fe fx seg root cur dst) = true)
    ∧ (∀ seg cur dst, noSentFL cur = true → okFL fx dst = true →
        okFL fx (selObj n fe fx seg root cur dst) = true)
    ∧ (∀ seg cur dst, noSentFL cur = true → okFL fx dst = true →
        okFL fx (descObj n fe fx seg root cur dst) = true)
    ∧ (∀ k seg cur dst, noSentFL cur = true → okFL fx dst = true →
        okFL fx (processKey n fe fx k seg root cur dst) = true)
    ∧ (∀ seg cur dstVal sub, noSentFL cur = true → okElem fx dstVal = true →
        dispatchObj n fe fx seg root cur dstVal = some sub → okFL fx sub = true)
    ∧ (∀ seg cur dst, noSentVL cur = true → okVL fx dst = true →
        okVL fx (selArrSeg n fe fx seg root cur dst) = true)
    ∧ (∀ seg cur dst, noSentVL cur = true → okVL fx dst = true →
        okVL fx (selArr n fe fx seg root cur dst) = true)
    ∧ (∀ seg a b st cur dst, noSentVL cur = true → okVL fx dst = true →
        okVL fx (processSlice n fe fx seg a b st root cur dst) = true)
    ∧ (∀ i seg cur dst, noSentVL cur = true → okVL fx dst = true →
        okVL fx (processIdx n fe fx i seg root cur dst) = true)
    ∧ (∀ seg cur dstVal, noSentVL cur = true → okElem fx dstVal = true →
        okVL fx (dispatchArr n fe fx seg root cur dstVal) = true)
    ∧ (∀ seg cur dst, noSentVL cur = true → okVL fx dst = true →
        okVL fx (descArr n fe fx seg root cur dst) = true) := by
  intro n
  induction n with
  | zero =>
    intro root
    refine ⟨fun _ _ _ _ hd => hd, fun _ _ _ _ hd => hd, fun _ _ _ _ hd => hd,
      fun _ _ _ _ _ hd => hd, fun _ _ _ _ _ _ h => by simp [dispatchObj] at h,
      fun _ _ _ _ hd => hd, fun _ _ _ _ hd => hd, fun _ _ _ _ _ _ _ hd => hd,
      fun _ _ _ _ _ hd => hd, fun _ _ _ _ _ => rfl, fun _ _ _ _ hd => hd⟩
  | succ n ih =>
    intro root
    obtain ⟨ihOS, ihO, ihDO, ihPK, ihDObj, ihAS, ihA, ihSl, ihPI, ihDArr, ihDA⟩ := ih root
    refine ⟨?_, ?_, ?_, ?_, ?_, ?_, ?_, ?_, ?_, ?_, ?_⟩
    -- selObjSeg
    · intro seg cur dst hcur hdst
      show okFL fx (SegList.foldl (fun d c => selObj n fe fx c root cur d)
          (selObj n fe fx seg root cur dst) seg.children) = true
      exact segListFoldPreserve (fun d => okFL fx d = true) _
        (fun acc c hacc => ihO c cur acc hcur hacc) seg.children _
        (ihO seg cur dst hcur hdst)
    -- selObj
    · intro seg cur dst hcur hdst
      have key : ∀ (sels : List Selector) (d : FList), okFL fx d = true →
          okFL fx (List.foldl
            (fun dst sel =>
              match sel with
              | .name nm => processKey n fe fx nm seg root cur dst
              | .wildcard =>
                FList.foldl (fun dst k _ => processKey n fe fx k seg root cur dst) dst cur
              | .filter f =>
                FList.foldl
                  (fun dst k v =>
                    if fe f v root then processKey n fe fx k seg root cur dst else dst)
                  dst cur
              | _ => dst)
            d sels) = true := by
        intro sels d hd
        refine listFoldPreserve (fun d => okFL fx d = true) _ (fun acc s hacc => ?_) sels d hd
        cases s with
        | name nm => exact ihPK nm seg cur acc hcur hacc
        | wildcard =>
          exact flistFoldPreserve (fun d => okFL fx d = true) _
            (fun acc k v _ hacc => ihPK k seg cur acc hcur hacc) cur hcur acc hacc
        | filter f =>
          refine flistFoldPreserve (fun d => okFL fx d = true) _
            (fun acc k v _ hacc => ?_) cur hcur acc hacc
          by_cases hfe : fe f v root = true
          · simpa [hfe] using ihPK k seg cur acc hcur hacc
          · simpa [hfe] using hacc
        | index i => exact hacc
        | slice a b st => exact hacc
      simp only [selObj]
      by_cases hdesc : seg.descendant = true
      · rw [if_pos hdesc]
        exact ihDO seg cur _ hcur (key seg.selectors dst hdst)
      · rw [if_neg hdesc]
        exact key seg.selectors dst hdst
    -- descObj
    · intro seg cur dst hcur hdst
      simp only [descObj]
      refine flistFoldPreserve (fun d => okFL fx d = true) _
        (fun acc k v hv hacc => ?_) cur hcur dst hdst
      cases v with
      | obj fs =>
        rcases hdisp : dispatchObj n fe fx seg root fs ((acc.lookup k).getD .nil) with _ | sub
        · simpa [hdisp] using hacc
        · have hsub : okFL fx sub = true :=
            ihDObj seg fs _ sub (by simpa [noSent] using hv)
              (okV_okElem fx _ (FList.lookup_getD_okV fx acc hacc k)) hdisp
          simpa [hdisp] using
            FList.setKey_okFL fx acc hacc k _ (by simpa [okV] using hsub)
      | arr xs =>
        have hsub : okVL fx (dispatchArr n fe fx seg root xs ((acc.lookup k).getD .nil)) = true :=
          ihDArr seg xs _ (by simpa [noSent] using hv)
            (okV_okElem fx _ (FList.lookup_getD_okV fx acc hacc k))
        by_cases hne : dispatchArr n fe fx seg root xs ((acc.lookup k).getD .nil) = .nil
        · simpa [hne] using hacc
        · simpa [hne] using
            FList.setKey_okFL fx acc hacc k _ (by simpa [okV] using hsub)
      | nil => exact hacc
      | bool b => exact hacc
      | num m => exact hacc
      | str s => exact hacc
      | sentinel => exact hacc
    -- processKey
    · intro k seg cur dst hcur hdst
      simp only [processKey]
      split
      · exact hdst
      · rename_i val hlk
        have hval : noSent val = true := FList.lookup_noSent cur hcur k val hlk
        by_cases hleaf : seg.children.length = 0
        · rw [if_pos hleaf]
          exact FList.setKey_okFL fx dst hdst k val (noSent_okV fx val hval)
        · rw [if_neg hleaf]
          cases val with
          | obj fs =>
            rcases hdisp : dispatchObj n fe fx seg root fs ((dst.lookup k).getD .nil) with _ | sub
            · simpa [hdisp] using hdst
            · have hsub : okFL fx sub = true :=
                ihDObj seg fs _ sub (by simpa [noSent] using hval)
                  (okV_okElem fx _ (FList.lookup_getD_okV fx dst hdst k)) hdisp
              simpa [hdisp] using
                FList.setKey_okFL fx dst hdst k _ (by simpa [okV] using hsub)
          | arr xs =>
            have hsub : okVL fx (dispatchArr n fe fx seg root xs ((dst.lookup k).getD .nil)) = true :=
              ihDArr seg xs _ (by simpa [noSent] using hval)
                (okV_okElem fx _ (FList.lookup_getD_okV fx dst hdst k))
            by_cases hne : dispatchArr n fe fx seg root xs ((dst.lookup k).getD .nil) = .nil
            · simpa [hne] using hdst
            · simpa [hne] using
                FList.setKey_okFL fx dst hdst k _ (by simpa [okV] using hsub)
          | nil => exact hdst
          | bool b => exact hdst
          | num m => exact hdst
          | str s => exact hdst
          | sentinel => exact hdst
    -- dispatchObj
    · intro seg cur dstVal sub hcur hel hdisp
      cases dstVal with
      | nil =>
        simp only [dispatchObj] at hdisp
        by_cases hz : (selObjSeg n fe fx seg root cur .nil).length = 0
        · simp [hz] at hdisp
        · simp only [hz, if_neg, ite_false] at hdisp
          have : selObjSeg n fe fx seg root cur .nil = sub := by
            by_cases hzz : (selObjSeg n fe fx seg root cur FList.nil).length = 0
            · exact absurd hzz hz
            · simpa [hzz] using hdisp
          rw [← this]
          exact ihOS seg cur .nil hcur rfl
      | obj fs' =>
        simp only [dispatchObj, Option.some.injEq] at hdisp
        rw [← hdisp]
        exact ihOS seg cur fs' hcur (by simpa [okElem, okV] using hel)
      | bool b => simp [dispatchObj] at hdisp
      | num m => simp [dispatchObj] at hdisp
      | str s => simp [dispatchObj] at hdisp
      | arr xs => simp [dispatchObj] at hdisp
      | sentinel => simp [dispatchObj] at hdisp
    -- selArrSeg
    · intro seg cur dst hcur hdst
      show okVL fx (SegList.foldl (fun d c => selArr n fe fx c root cur d)
          (selArr n fe fx seg root cur dst) seg.children) = true
      exact segListFoldPreserve (fun d => okVL fx d = true) _
        (fun acc c hacc => ihA c cur acc hcur hacc) seg.children _
        (ihA seg cur dst hcur hdst)
    -- selArr
    · intro seg cur dst hcur hdst
      have key : ∀ (sels : List Selector) (d : VList), okVL fx d = true →
          okVL fx (List.foldl
            (fun dst sel =>
              match sel with
              | .index i =>
                if i < (cur.length : Int) then
                  if 0 ≤ i then processIdx n fe fx i.toNat seg root cur dst else dst
                else dst
              | .wildcard =>
                VList.foldlIdx (fun dst i _ => processIdx n fe fx i seg root cur dst) 0 dst cur
              | .slice a b st => processSlice n fe fx seg a b st root cur dst
              | .filter f =>
                VList.foldlIdx
                  (fun dst i v =>
                    if fe f v root then processIdx n fe fx i seg root cur dst else dst)
                  0 dst cur
              | _ => dst)
            d sels) = true := by
        intro sels d hd
        refine listFoldPreserve (fun d => okVL fx d = true) _ (fun acc s hacc => ?_) sels d hd
        cases s with
        | index i =>
          by_cases h1 : i < (cur.length : Int)
          · by_cases h2 : (0 : Int) ≤ i
            · simpa [h1, h2] using ihPI i.toNat seg cur acc hcur hacc
            · simpa [h1, h2] using hacc
          · simpa [h1] using hacc
        | wildcard =>
          exact vlistFoldIdxPreserve (fun d => okVL fx d = true) _
            (fun acc i v _ hacc => ihPI i seg cur acc hcur hacc) cur hcur 0 acc hacc
        | slice a b st => exact ihSl seg a b st cur acc hcur hacc
        | filter f =>
          refine vlistFoldIdxPreserve (fun d => okVL fx d = true) _
            (fun acc i v _ hacc => ?_) cur hcur 0 acc hacc
          by_cases hfe : fe f v root = true
          · simpa [hfe] using ihPI i seg cur acc hcur hacc
          · simpa [hfe] using hacc
        | name nm => exact hacc
      simp only [selArr]
      by_cases hdesc : seg.descendant = true
      · rw [if_pos hdesc]
        exact ihDA seg cur _ hcur (key seg.selectors dst hdst)
      · rw [if_neg hdesc]
        exact key seg.selectors dst hdst
    -- processSlice
    · intro seg a b st cur dst hcur hdst
      simp only [processSlice]
      by_cases h1 : st > 0
      · rw [if_pos h1]
        rcases hb : sliceBounds a b st (cur.length : Int) with ⟨lo, up⟩
        exact listFoldPreserve (fun d => okVL fx d = true) _
          (fun acc i hacc => ihPI i seg cur acc hcur hacc) _ dst hdst
      · rw [if_neg h1]
        by_cases h2 : st < 0
        · rw [if_pos h2]
          rcases hb : sliceBounds a b st (cur.length : Int) with ⟨lo, up⟩
          exact listFoldPreserve (fun d => okVL fx d = true) _
            (fun acc i hacc => ihPI i seg cur acc hcur hacc) _ dst hdst
        · rw [if_neg h2]
          exact hdst
    -- processIdx
    · intro i seg cur dst hcur hdst
      simp only [processIdx]
      have hdst' : okVL fx (if dst.length ≤ i then dst.growTo (i + 1) else dst) = true := by
        by_cases hg : dst.length ≤ i
        · simpa [hg] using VList.growTo_okVL fx dst hdst (i + 1)
        · simpa [hg] using hdst
      have hvel : noSent (cur.getD i) = true := VList.getD_noSent cur hcur i
      by_cases hleaf : seg.children.length = 0
      · simp only [hleaf, if_pos]
        exact insert_okVL fx i _ _ hdst' (noSent_okV fx _ hvel)
      · rw [if_neg hleaf]
        have htake : okVL fx
            (if dst.length ≤ i then
              (if dst.length ≤ i then dst.growTo (i + 1) else dst).take dst.length
             else (if dst.length ≤ i then dst.growTo (i + 1) else dst)) = true := by
          by_cases hg : dst.length ≤ i
          · simpa [hg] using VList.take_okVL fx _ hdst' dst.length
          · simpa [hg] using hdst'
        rcases hv : cur.getD i with _ | b | m | s | xs | fs
        · exact htake
        · exact htake
        · exact htake
        · exact htake
        · -- array element
          have hxs : noSentVL xs = true := by
            rw [hv] at hvel
            simpa [noSent] using hvel
          have hsub : okVL fx (dispatchArr n fe fx seg root xs
              ((if dst.length ≤ i then dst.growTo (i + 1) else dst).getD i)) = true :=
            ihDArr seg xs _ hxs (VList.getD_okElem fx _ hdst' i)
          by_cases hne : dispatchArr n fe fx seg root xs
              ((if dst.length ≤ i then dst.growTo (i + 1) else dst).getD i) = .nil
          · simpa [hne] using htake
          · simpa [hne] using insert_okVL fx i _ _ hdst' (by simpa [okV] using hsub)
        · -- object element
          have hfs : noSentFL fs = true := by
            rw [hv] at hvel
            simpa [noSent] using hvel
          rcases hdisp : dispatchObj n fe fx seg root fs
              ((if dst.length ≤ i then dst.growTo (i + 1) else dst).getD i) with _ | sub
          · simpa [hdisp] using htake
          · have hsub : okFL fx sub = true :=
              ihDObj seg fs _ sub hfs (VList.getD_okElem fx _ hdst' i) hdisp
            simpa [hdisp] using insert_okVL fx i _ _ hdst' (by simpa [okV] using hsub)
        · -- sentinel element cannot come from a sentinel-free source
          rw [hv] at hvel
          simp [noSent] at hvel
    -- dispatchArr
    · intro seg cur dstVal hcur hel
      cases dstVal with
      | nil => exact ihAS seg cur .nil hcur rfl
      | arr xs' => exact ihAS seg cur xs' hcur (by simpa [okElem, okV] using hel)
      | bool b => rfl
      | num m => rfl
      | str s => rfl
      | obj fs => rfl
      | sentinel => rfl
    -- descArr
    · intro seg cur dst hcur hdst
      simp only [descArr]
      refine vlistFoldIdxPreserve (fun d => okVL fx d = true) _
        (fun acc i v hv hacc => ?_) cur hcur 0 dst hdst
      cases v with
      | obj fs =>
        rcases hdisp : dispatchObj n fe fx seg root fs
            (if i < dst.length then acc.getD i else .nil) with _ | sub
        · simpa [hdisp] using hacc
        · have hsubd : okElem fx (if i < dst.length then acc.getD i else .nil) = true := by
            by_cases hi : i < dst.length
            · simpa [hi] using VList.getD_okElem fx acc hacc i
            · simp [hi, okElem, okV]
          have hsub : okFL fx sub = true :=
            ihDObj seg fs _ sub (by simpa [noSent] using hv) hsubd hdisp
          simpa [hdisp] using insert_okVL fx i acc _ hacc (by simpa [okV] using hsub)
      | arr xs =>
        have hsubd : okElem fx (if i < dst.length then acc.getD i else .nil) = true := by
          by_cases hi : i < dst.length
          · simpa [hi] using VList.getD_okElem fx acc hacc i
          · simp [hi, okElem, okV]
        have hsub : okVL fx (dispatchArr n fe fx seg root xs
            (if i < dst.length then acc.getD i else .nil)) = true :=
          ihDArr seg xs _ (by simpa [noSent] using hv) hsubd
        by_cases hne : dispatchArr n fe fx seg root xs
            (if i < dst.length then acc.getD i else .nil) = .nil
        · simpa [hne] using hacc
        · simpa [hne] using insert_okVL fx i acc _ hacc (by simpa [okV] using hsub)
      | nil => exact hacc
      | bool b => exact hacc
      | num m => exact hacc
      | str s => exact hacc
      | sentinel => exact hacc

/-- C10: for every tree, every filter environment and every sentinel-free
input value, the value returned by `Select` never contains the internal
sentinel at any depth — in fixed mode the sentinel is never written into
the destination, and in ordered mode the compression pass replaces every
sentinel with JSON null before returning. -/
theorem c10_no_sentinel_output (fe : Fenv) (t : Tree) (v : Value)
    (hv : noSent v = true) : noSent (Select fe t v) = true := by
  rcases t with ⟨root, fx⟩
  by_cases h0 : root.children.length = 0
  · simpa [Select, h0] using hv
  · cases v with
    | obj fs =>
      have hfs : noSentFL fs = true := by simpa [noSent] using hv
      have hok : okFL fx
          (selObjSeg (evalFuel (Value.obj fs)) fe fx root (Value.obj fs) fs .nil) = true :=
        (evalOk fe fx (evalFuel (Value.obj fs)) (Value.obj fs)).1 root fs .nil hfs rfl
      rw [select_obj_unfold fe fx root fs h0]
      cases fx with
      | true => simpa [noSent] using okFL_true_noSent _ hok
      | false => simpa [noSent] using compressFL_ok_noSent _ hok
    | arr xs =>
      have hxs : noSentVL xs = true := by simpa [noSent] using hv
      have hok : okVL fx
          (selArrSeg (evalFuel (Value.arr xs)) fe fx root (Value.arr xs) xs .nil) = true :=
        (evalOk fe fx (evalFuel (Value.arr xs)) (Value.arr xs)).2.2.2.2.2.1
          root xs .nil hxs rfl
      rw [select_arr_unfold fe fx root xs h0]
      by_cases hne : selArrSeg (evalFuel (Value.arr xs)) fe fx root (Value.arr xs) xs .nil
          = VList.nil
      · simp [hne, noSent, noSentVL]
      · cases fx with
        | true => simpa [hne, noSent] using okVL_true_noSent _ hok
        | false => simpa [hne, noSent] using compressVL_ok_noSent _ hok
    | nil =>
      rw [select_scalar_unfold fe fx root Value.nil h0 rfl]
      rfl
    | bool b =>
      rw [select_scalar_unfold fe fx root (Value.bool b) h0 rfl]
      rfl
    | num m =>
      rw [select_scalar_unfold fe fx root (Value.num m) h0 rfl]
      rfl
    | str s =>
      rw [select_scalar_unfold fe fx root (Value.str s) h0 rfl]
      rfl
    | sentinel =>
      rw [select_scalar_unfold fe fx root Value.sentinel h0 rfl]
      rfl

/-- Witness for C10 at a concrete ordered-mode tree and input. -/
theorem c10_no_sentinel_output_witness :
    noSent (Value.obj (FList.cons "a" (Value.arr (VList.cons (Value.num 1)
      (VList.cons Value.nil VList.nil))) FList.nil)) = true ∧
    noSent (Select (fun _ _ _ => false)
      (Tree.mk (Segment.mk [] (SegList.cons
        (Segment.mk [Selector.name "a"] SegList.nil false) SegList.nil) false) false)
      (Value.obj (FList.cons "a" (Value.arr (VList.cons (Value.num 1)
        (VList.cons Value.nil VList.nil))) FList.nil))) = true :=
  ⟨by decide, c10_no_sentinel_output (fun _ _ _ => false) _ _ (by decide)⟩

end JsonTree
